import Mathlib

set_option maxHeartbeats 1000000

/-!
Shallow embedding of the `remotesync` sender of the cafs repository
(`src/remotesync/send.go`) together with the collaborators it uses that are
not part of `src/` (the stream shuffler, the bit and varint codecs and the
receiver/builder), which are modelled from the specification.

Bytes are modelled as `Nat` (values < 256 wherever produced by the code),
chunk content as `List Nat`, keys (`cafs.SKey`) as byte lists of width 32.
Fallible code returns `Except`.
-/

/-- A chunk key (`cafs.SKey`): a fixed-width content hash, 32 bytes. -/
abbrev SKey := List Nat

/-- A chunk's content: a byte string. A chunk's size is its length. -/
abbrev Chunk := List Nat

/-- Width of a key in bytes (`cafs.SKey` is `[32]byte`). -/
def keyLen : Nat := 32

/-- The all-zero placeholder key (`emptyKey` in the Go package). -/
def emptyKey : SKey := List.replicate keyLen 0

/-! ## Varint codec

Modelled from the spec: the varint codec (`writeVarint`, used by
`send.go`, and its reader) is not under `src/`.  Spec §4.1: standard
little-endian base-128 continuation scheme, 7 data bits per byte, high bit
set means "more bytes follow".  Sizes are non-negative, so `Nat` is used;
the 10-byte overflow guard of the decoder is not needed by any claim and is
not modelled. -/

/-- Encode a non-negative integer in little-endian base-128 varint form. -/
def writeVarint (n : Nat) : List Nat :=
  if n < 128 then [n]
  else (n % 128 + 128) :: writeVarint (n / 128)
termination_by n
decreasing_by
  exact Nat.div_lt_self (by omega) (by omega)

/-- Decode a little-endian base-128 varint from the head of a byte list,
returning the value and the remaining bytes. -/
def readUvarint : List Nat → Option (Nat × List Nat)
  | [] => none
  | b :: rest =>
    if b < 128 then some (b, rest)
    else
      match readUvarint rest with
      | none => none
      | some (v, r) => some ((b - 128) + 128 * v, r)

/-! ## Byte sources and the bit codec

Modelled from the spec: the bit reader (`newBitReader` used by
`forEachChunk`) and the bit writer are not under `src/`.  Spec §4.2: the
writer packs bits MSB-first into bytes and pads the final partial byte with
zero bits; the reader consumes one bit at a time from an underlying byte
source.  A byte source can end either cleanly (end-of-stream, `io.EOF`) or
with a genuine read error; both terminal outcomes are modelled. -/

/-- A byte source: the remaining bytes, and whether the source reports an
I/O error (rather than a clean end-of-stream) once the bytes run out. -/
structure ByteSrc where
  bytes : List Nat
  errAtEnd : Bool
deriving DecidableEq

/-- Outcome of reading one byte from a `ByteSrc`. -/
inductive ReadRes where
  | byte (b : Nat) (rest : ByteSrc)
  | eof
  | ioErr
deriving DecidableEq

/-- Read one byte (`io.ByteReader.ReadByte`). -/
def ByteSrc.readByte : ByteSrc → ReadRes
  | ⟨[], false⟩ => .eof
  | ⟨[], true⟩ => .ioErr
  | ⟨b :: rest, e⟩ => .byte b ⟨rest, e⟩

/-- The eight bits of a byte, most significant first. -/
def byteBits (b : Nat) : List Bool :=
  [b.testBit 7, b.testBit 6, b.testBit 5, b.testBit 4,
   b.testBit 3, b.testBit 2, b.testBit 1, b.testBit 0]

/-- Pack a list of at most eight bits (MSB first, zero-padded at the end)
into one byte value. -/
def packByte (bits : List Bool) : Nat :=
  (bits ++ List.replicate (8 - bits.length) false).foldl
    (fun a b => 2 * a + (if b then 1 else 0)) 0

/-- The bit writer's output: pack a bit sequence MSB-first into bytes,
flushing the final partial byte padded with zero bits (spec §4.2). -/
def bitsToBytes (bits : List Bool) : List Nat :=
  match bits with
  | [] => []
  | b0 :: rest => packByte (b0 :: rest.take 7) :: bitsToBytes (rest.drop 7)
termination_by bits.length
decreasing_by
  simp only [List.length_drop, List.length_cons]
  omega

/-- State of a bit reader: the underlying byte source and the bits of the
current partially consumed byte. -/
structure BitReader where
  src : ByteSrc
  buf : List Bool
deriving DecidableEq

/-- Read one bit: serve from the buffered byte if any, otherwise fetch the
next byte from the source (an exhausted source is an error). -/
def readBit (br : BitReader) : Except Unit (Bool × BitReader) :=
  match br.buf with
  | bit :: rest => .ok (bit, ⟨br.src, rest⟩)
  | [] =>
    match br.src.readByte with
    | .byte v s' =>
      match byteBits v with
      | bit :: rest => .ok (bit, ⟨s', rest⟩)
      | [] => .error ()
    | _ => .error ()

/-! ## The stream shuffler

Modelled from the spec: the `shuffle` package
(`remotesync/shuffle.NewStreamShuffler`) is not under `src/`.  Spec §4.3:
`put` buffers the item keyed by its destination slot `perm(logical index)`
and drains consecutive ready slots starting at the smallest not-yet-emitted
one; `end` fills every remaining slot in ascending order, emitting the
buffered real item where present and the placeholder otherwise.  Emission
is fail-fast: the first `emit` error aborts.  The consumer callback is
modelled as a state-passing fallible function `α → σ → Except ε σ`. -/

/-- Internal state of a stream shuffler: pending items keyed by destination
slot, the next slot to emit, and the number of items put so far. -/
structure ShufState (α : Type) where
  pending : List (Nat × α)
  cursor : Nat
  idx : Nat

/-- Look up the pending item buffered for a slot. -/
def lookupSlot {α : Type} : Nat → List (Nat × α) → Option α
  | _, [] => none
  | s, (t, a) :: l => if t = s then some a else lookupSlot s l

/-- Remove the (first) pending entry buffered for a slot. -/
def removeSlot {α : Type} : Nat → List (Nat × α) → List (Nat × α)
  | _, [] => []
  | s, (t, a) :: l => if t = s then l else (t, a) :: removeSlot s l

/-- Drain the shuffler: while the next slot to emit is buffered, emit it and
advance.  The fuel argument is the number of pending entries, which bounds
the number of drain steps. -/
def drainAux {α σ ε : Type} (emit : α → σ → Except ε σ) :
    Nat → ShufState α → σ → Except ε (ShufState α × σ)
  | 0, st, s => .ok (st, s)
  | fuel + 1, st, s =>
    match lookupSlot st.cursor st.pending with
    | none => .ok (st, s)
    | some a =>
      match emit a s with
      | .error e => .error e
      | .ok s' =>
        drainAux emit fuel ⟨removeSlot st.cursor st.pending, st.cursor + 1, st.idx⟩ s'

/-- `put`: accept the next item in logical order, buffer it at its
destination slot, and drain all consecutive ready slots. -/
def shufPut {α σ ε : Type} (perm : Nat → Nat) (emit : α → σ → Except ε σ)
    (a : α) (st : ShufState α) (s : σ) : Except ε (ShufState α × σ) :=
  drainAux emit ((perm st.idx, a) :: st.pending).length
    ⟨(perm st.idx, a) :: st.pending, st.cursor, st.idx + 1⟩ s

/-- Feed a list of items to the shuffler via `put`, erroring out on the
first failed emission (the caller's loop in `send.go` returns immediately
when `Put` fails). -/
def shufPutAll {α σ ε : Type} (perm : Nat → Nat) (emit : α → σ → Except ε σ) :
    List α → ShufState α → σ → Except ε (ShufState α × σ)
  | [], st, s => .ok (st, s)
  | a :: rest, st, s =>
    match shufPut perm emit a st s with
    | .error e => .error e
    | .ok (st', s') => shufPutAll perm emit rest st' s'

/-- `end`, remaining-slot loop: emit every slot from the cursor up to the
domain size in ascending order, the buffered real item where present and
the placeholder otherwise. -/
def shufEndAux {α σ ε : Type} (emit : α → σ → Except ε σ) (ph : α) :
    Nat → ShufState α → σ → Except ε σ
  | 0, _, s => .ok s
  | fuel + 1, st, s =>
    match emit ((lookupSlot st.cursor st.pending).getD ph) s with
    | .error e => .error e
    | .ok s' =>
      shufEndAux emit ph fuel ⟨removeSlot st.cursor st.pending, st.cursor + 1, st.idx⟩ s'

/-- `end()`: fill every remaining un-emitted destination slot, in ascending
slot order. -/
def shufEnd {α σ ε : Type} (n : Nat) (ph : α) (emit : α → σ → Except ε σ)
    (st : ShufState α) (s : σ) : Except ε σ :=
  shufEndAux emit ph (n - st.cursor) st s

/-- A complete shuffler session over permutation domain `[0, n)`: `put` each
item of `items` in logical order, then `end()`. -/
def runShuffler {α σ ε : Type} (perm : Nat → Nat) (n : Nat) (ph : α)
    (emit : α → σ → Except ε σ) (items : List α) (s : σ) : Except ε σ :=
  match shufPutAll perm emit items ⟨[], 0, 0⟩ s with
  | .error e => .error e
  | .ok (st, s') => shufEnd n ph emit st s'

/-! ## Denotation helpers -/

/-- Fold a fallible state-passing step over a list, short-circuiting on the
first error.  A complete shuffler session is proved below to equal this
fold over the slot-ordered item sequence. -/
def foldES {α σ ε : Type} (emit : α → σ → Except ε σ) : List α → σ → Except ε σ
  | [], s => .ok s
  | a :: rest, s =>
    match emit a s with
    | .error e => .error e
    | .ok s' => foldES emit rest s'

/-- The logical index put into slot `s`, if any: the unique `i < k` with
`perm i = s`. -/
def invPerm (perm : Nat → Nat) (k s : Nat) : Option Nat :=
  (List.range k).find? fun i => perm i == s

/-- The item a complete shuffler session emits for slot `s`: the real item
whose destination is `s` when one exists, the placeholder otherwise. -/
def slotItem {α : Type} (perm : Nat → Nat) (ph : α) (items : List α) (s : Nat) : α :=
  match invPerm perm items.length s with
  | some i => items.getD i ph
  | none => ph

/-- The full slot-ordered sequence a complete shuffler session emits. -/
def slotSeq {α : Type} (perm : Nat → Nat) (ph : α) (items : List α) (n : Nat) : List α :=
  (List.range n).map (slotItem perm ph items)

/-- Slot `s` is the destination of one of the first `j` logical items. -/
def covered (perm : Nat → Nat) (j s : Nat) : Prop := ∃ i, i < j ∧ perm i = s

instance (perm : Nat → Nat) (j s : Nat) : Decidable (covered perm j s) :=
  decidable_of_iff (∃ i ∈ List.range j, perm i = s) (by simp [covered])

/-! ## Sender — `src/remotesync/send.go`

The following definitions are translated from the source.  A `cafs.File` is
modelled as its list of chunks (its size is the sum of the chunk sizes, its
chunk iterator yields the chunks in list order); `cafs.FileStorage.Get` is
modelled as a function `SKey → Option Chunk`; an `io.Writer` as a byte list
accumulated in the state. -/

/-- Error taxonomy of `forEachChunk` (spec §7): the wishlist-too-short wrap
of a failed bit read, the `SpuriousRequest` protocol violation
("Receiver requested the empty chunk"), a failed `storage.Get`, an error
returned by the per-chunk function `f`, and the trailing-bytes check
("Wishlist too long"). -/
inductive FErr (ε : Type) where
  | wishlistTooShort
  | spuriousRequest
  | storageError
  | userError (e : ε)
  | wishlistTooLong
deriving DecidableEq

/-- Body of the `emit` callback of `forEachChunk` after the bit was read
(`send.go` lines 86–104): a placeholder key with a `true` bit is a
`SpuriousRequest`; a placeholder with a `false` bit is skipped; a real key
is resolved against storage and dispatched to `f`. -/
def fecStep {σ ε : Type} (storage : SKey → Option Chunk)
    (f : Chunk → Bool → σ → Except ε σ) (key : SKey) (b : Bool) (u : σ) :
    Except (FErr ε) σ :=
  if key = emptyKey then
    if b then .error .spuriousRequest else .ok u
  else
    match storage key with
    | none => .error .storageError
    | some chunk =>
      match f chunk b u with
      | .ok u' => .ok u'
      | .error e => .error (.userError e)

/-- The shape shared by the `emit` callbacks of `forEachChunk`
(`send.go` lines 84–85): read one wishlist bit from the bit reader carried
in the state (a failed read yields `err`), then process the emitted item
with the bit. -/
def bitEmit {α σ ε : Type} (err : σ → ε) (g : α → Bool → σ → Except ε σ)
    (a : α) (st : BitReader × σ) : Except ε (BitReader × σ) :=
  match readBit st.1 with
  | .error _ => .error (err st.2)
  | .ok (b, br') =>
    match g a b st.2 with
    | .error e => .error e
    | .ok u' => .ok (br', u')

/-- The `emit` callback of `forEachChunk` (`send.go` lines 82–105): read one
wishlist bit (a failed read is "Wishlist too short"), then process the
emitted key. -/
def fecEmit {σ ε : Type} (storage : SKey → Option Chunk)
    (f : Chunk → Bool → σ → Except ε σ) :
    SKey → BitReader × σ → Except (FErr ε) (BitReader × σ) :=
  bitEmit (fun _ => .wishlistTooShort) (fecStep storage f)

/-- `forEachChunk` (`send.go` lines 74–122): feed the file's chunk keys
through a shuffler over permutation domain `[0, n)` with placeholder
`emptyKey`, matching each emitted slot with one wishlist bit and calling
`f` for each real chunk; afterwards require the wishlist byte source to be
exhausted — any outcome of the final read other than `io.EOF` is
"Wishlist too long". -/
def forEachChunk {σ ε : Type} (storage : SKey → Option Chunk)
    (fileKeys : List SKey) (src : ByteSrc) (perm : Nat → Nat) (n : Nat)
    (f : Chunk → Bool → σ → Except ε σ) (u0 : σ) : Except (FErr ε) σ :=
  match runShuffler perm n emptyKey (fecEmit storage f) fileKeys (⟨src, []⟩, u0) with
  | .error e => .error e
  | .ok (br, u) =>
    match br.src.readByte with
    | .eof => .ok u
    | _ => .error .wishlistTooLong

/-- `WriteChunkHashes` (`send.go` lines 34–69): feed the `(key, size)` pairs
of the file's chunks through a shuffler with placeholder `(emptyKey, 0)`;
each emitted slot is written as the key bytes followed by the varint-encoded
size.  Writing to the modelled output (a byte list) cannot fail, so the
error type is `Empty`.  The key of a chunk is given by the content hash
function `hash`. -/
def WriteChunkHashes (hash : Chunk → SKey) (file : List Chunk)
    (perm : Nat → Nat) (n : Nat) : Except Empty (List Nat) :=
  runShuffler perm n (emptyKey, 0)
    (fun c out => .ok (out ++ c.1 ++ writeVarint c.2))
    (file.map fun c => (hash c, c.length)) []

/-- Size of a modelled file: the sum of its chunk sizes (`cafs.File.Size`). -/
def fileSize (file : List Chunk) : Int :=
  ((file.map List.length).sum : Nat)

/-- Mutable state of `WriteChunkData`: the output stream written so far, the
two progress counters, and the log of status-callback invocations (each
entry the argument pair of one invocation). -/
structure WCDState where
  out : List Nat
  toTransfer : Int
  transferred : Int
  cbLog : List (Int × Int)
deriving DecidableEq

/-- The per-chunk closure of `WriteChunkData` (`send.go` lines 143–163):
for a requested chunk write `varint(size)` and the chunk bytes and add the
copied byte count to `bytesTransferred`; for a non-requested chunk subtract
its size from `bytesToTransfer`; then, if a callback is present, invoke it
with the updated snapshot. -/
def wcdF (hasCb : Bool) (chunk : Chunk) (requested : Bool) (st : WCDState) :
    Except Empty WCDState :=
  let st1 :=
    if requested then
      { st with out := st.out ++ writeVarint chunk.length ++ chunk,
                transferred := st.transferred + chunk.length }
    else
      { st with toTransfer := st.toTransfer - chunk.length }
  .ok (if hasCb then { st1 with cbLog := st1.cbLog ++ [(st1.toTransfer, st1.transferred)] } else st1)

/-- `WriteChunkData` (`send.go` lines 127–164): initialize
`bytesToTransfer = file.Size()` and `bytesTransferred = 0`, invoke the
callback once with the initial values if present, then drive `forEachChunk`
with the per-chunk closure. -/
def WriteChunkData (hash : Chunk → SKey) (storage : SKey → Option Chunk)
    (file : List Chunk) (src : ByteSrc) (perm : Nat → Nat) (n : Nat)
    (hasCb : Bool) : Except (FErr Empty) WCDState :=
  forEachChunk storage (file.map hash) src perm n (wcdF hasCb)
    { out := []
      toTransfer := fileSize file
      transferred := 0
      cbLog := if hasCb then [(fileSize file, 0)] else [] }

/-! ## Traced `forEachChunk` for the disposal discipline

The chunk handle returned by `storage.Get` is disposed by `forEachChunk`
itself (`send.go` lines 93–103: `err := f(chunk, b); chunk.Dispose();
if err != nil { return err }`).  To reason about handle lifetimes the run
is instrumented with an event trace; an error carries the trace at the
moment of return. -/

/-- Handle events of a `forEachChunk` run: a chunk handle obtained from
`storage.Get`, the invocation of the per-chunk function on it, and its
disposal. -/
inductive Ev where
  | get (k : SKey)
  | call (k : SKey) (b : Bool)
  | dispose (k : SKey)
deriving DecidableEq

/-- Body of the instrumented `emit` callback after the bit was read.  The
order of events follows the source exactly: the handle is obtained, `f` is
invoked, the handle is disposed, and only then is an error from `f`
propagated; an error carries the trace at the moment of return. -/
def fecStepTr {σ ε : Type} (storage : SKey → Option Chunk)
    (f : Chunk → Bool → σ → Except ε σ) (key : SKey) (b : Bool)
    (p : List Ev × σ) : Except (FErr ε × List Ev) (List Ev × σ) :=
  if key = emptyKey then
    if b then .error (.spuriousRequest, p.1) else .ok p
  else
    match storage key with
    | none => .error (.storageError, p.1)
    | some chunk =>
      match f chunk b p.2 with
      | .ok u' =>
        .ok (p.1 ++ [.get key, .call key b, .dispose key], u')
      | .error e =>
        .error (.userError e, p.1 ++ [.get key, .call key b, .dispose key])

/-- The `emit` callback of `forEachChunk` with event instrumentation. -/
def fecEmitTr {σ ε : Type} (storage : SKey → Option Chunk)
    (f : Chunk → Bool → σ → Except ε σ) :
    SKey → BitReader × (List Ev × σ) →
    Except (FErr ε × List Ev) (BitReader × (List Ev × σ)) :=
  bitEmit (fun p => (.wishlistTooShort, p.1)) (fecStepTr storage f)

/-- `forEachChunk` with event instrumentation: returns the event trace at
the moment of return together with the result. -/
def forEachChunkTr {σ ε : Type} (storage : SKey → Option Chunk)
    (fileKeys : List SKey) (src : ByteSrc) (perm : Nat → Nat) (n : Nat)
    (f : Chunk → Bool → σ → Except ε σ) (u0 : σ) :
    List Ev × Except (FErr ε) σ :=
  match runShuffler perm n emptyKey (fecEmitTr storage f) fileKeys (⟨src, []⟩, ([], u0)) with
  | .error (e, tr) => (tr, .error e)
  | .ok (br, (tr, u)) =>
    match br.src.readByte with
    | .eof => (tr, .ok u)
    | _ => (tr, .error .wishlistTooLong)

/-- Is an event a handle acquisition or disposal? -/
def isGD : Ev → Bool
  | .get _ => true
  | .dispose _ => true
  | .call _ _ => false

/-- A get/dispose event list is well scoped when it is a sequence of
adjacent pairs, each acquisition immediately followed by the disposal of
the same handle. -/
def wellScoped : List Ev → Bool
  | [] => true
  | .get k :: .dispose k' :: rest => k = k' && wellScoped rest
  | _ => false

/-! ## Receiver / builder

Modelled from the spec: the receiver (`Builder.WriteWishList`,
`Builder.ReconstructFileFromRequestedChunks`) is not under `src/`.
Spec §4.6: read `n` slot entries `key || varint(size)`, and for every
non-placeholder slot emit the bit "true = send me this, false = already
have it / placeholder" of a local possession check; the bits go out in slot
order through the bit writer, flushed with zero padding.  Spec §4.8: walk
the slots in order, for a requested slot read `varint(size)` and that many
bytes from the data stream, for a non-requested real slot fetch the chunk
from local storage by its key, placeholders contribute nothing; the chunks
are reassembled into storage order (spec §3 grants the permutation's
inverse; §4.8 leaves this reindexing implicit, and without it the stated
byte-identical result could not hold). -/

/-- Parse `m` hash-list entries `key (keyLen bytes) || varint(size)` from a
byte stream (spec §4.6). -/
def parseEntries : Nat → List Nat → Option (List (SKey × Nat) × List Nat)
  | 0, bs => some ([], bs)
  | m + 1, bs =>
    if bs.length < keyLen then none
    else
      match readUvarint (bs.drop keyLen) with
      | none => none
      | some (sz, bs₁) =>
        match parseEntries m bs₁ with
        | none => none
        | some (rest, bs₂) => some ((bs.take keyLen, sz) :: rest, bs₂)

/-- The receiver's wishlist bits, one per slot in slot order: `true` exactly
for a non-placeholder key it does not possess locally (spec §4.6). -/
def wishBits (storeB : SKey → Option Chunk) (entries : List (SKey × Nat)) :
    List Bool :=
  entries.map fun e => decide (e.1 ≠ emptyKey ∧ storeB e.1 = none)

/-- Recover the chunk of every slot (spec §4.8): walk the slot entries
paired with their wishlist bits; a placeholder slot contributes nothing, a
requested slot is read from the data stream as `varint(size)` followed by
exactly that many bytes, a non-requested real slot is fetched from local
storage.  Returns the per-slot chunks and the unconsumed rest of the data
stream. -/
def recoverSlots (storeB : SKey → Option Chunk) :
    List ((SKey × Nat) × Bool) → List Nat → Option (List (Option Chunk) × List Nat)
  | [], bs => some ([], bs)
  | ((key, _sz), req) :: rest, bs =>
    if key = emptyKey then
      match recoverSlots storeB rest bs with
      | none => none
      | some (l, r) => some (none :: l, r)
    else if req then
      match readUvarint bs with
      | none => none
      | some (len, bs₁) =>
        if bs₁.length < len then none
        else
          match recoverSlots storeB rest (bs₁.drop len) with
          | none => none
          | some (l, r) => some (some (bs₁.take len) :: l, r)
    else
      match storeB key with
      | none => none
      | some c =>
        match recoverSlots storeB rest bs with
        | none => none
        | some (l, r) => some (some c :: l, r)

/-- Reassemble the recovered per-slot chunks into storage order: the `i`-th
chunk of the new file is the chunk recovered at slot `perm i`; logical
indices whose slot holds no chunk (placeholders) contribute nothing
(spec §4.8 with the reindexing of spec §3). -/
def reassemble (perm : Nat → Nat) (n : Nat) (slots : List (Option Chunk)) :
    List Chunk :=
  (List.range n).filterMap fun i => (slots.getD (perm i) none)

/-- The complete three-phase synchronization session (spec §2): the sender's
hash stream is parsed by the receiver, the receiver's wishlist is packed to
bytes and consumed by the sender's data phase, and the receiver reassembles
the resulting data stream into the reconstructed file's chunk list. -/
def syncPipeline (hash : Chunk → SKey) (storeA storeB : SKey → Option Chunk)
    (file : List Chunk) (perm : Nat → Nat) (n : Nat) : Option (List Chunk) :=
  match WriteChunkHashes hash file perm n with
  | .error e => e.elim
  | .ok hashStream =>
    match parseEntries n hashStream with
    | none => none
    | some (entries, rest₁) =>
      if rest₁.isEmpty then
        match WriteChunkData hash storeA file
            ⟨bitsToBytes (wishBits storeB entries), false⟩ perm n false with
        | .error _ => none
        | .ok st =>
          match recoverSlots storeB (entries.zip (wishBits storeB entries)) st.out with
          | none => none
          | some (slots, rest₂) =>
            if rest₂.isEmpty then some (reassemble perm n slots) else none
      else none

/-! ## Association-list lemmas -/

theorem lookupSlot_eq_none {α : Type} (s : Nat) (l : List (Nat × α)) :
    lookupSlot s l = none ↔ s ∉ l.map Prod.fst := by
  induction l with
  | nil => simp [lookupSlot]
  | cons p l ih =>
    obtain ⟨t, a⟩ := p
    simp only [lookupSlot, List.map_cons, List.mem_cons]
    by_cases h : t = s
    · simp [h]
    · rw [if_neg h, ih]
      simp only [not_or]
      constructor
      · intro hh
        exact ⟨fun hc => h hc.symm, hh⟩
      · exact fun hh => hh.2

theorem lookupSlot_isSome_mem {α : Type} {s : Nat} {l : List (Nat × α)} {a : α}
    (h : lookupSlot s l = some a) : s ∈ l.map Prod.fst := by
  by_contra hmem
  rw [← lookupSlot_eq_none] at hmem
  simp [hmem] at h

theorem removeSlot_length {α : Type} {s : Nat} {l : List (Nat × α)} {a : α}
    (h : lookupSlot s l = some a) : (removeSlot s l).length + 1 = l.length := by
  induction l with
  | nil => simp [lookupSlot] at h
  | cons p l ih =>
    obtain ⟨t, b⟩ := p
    by_cases ht : t = s
    · simp [removeSlot, ht]
    · simp only [lookupSlot, if_neg ht] at h
      simp [removeSlot, ht, ih h]

theorem lookupSlot_removeSlot_ne {α : Type} (s s' : Nat) (l : List (Nat × α))
    (h : s' ≠ s) : lookupSlot s' (removeSlot s l) = lookupSlot s' l := by
  induction l with
  | nil => simp [removeSlot]
  | cons p l ih =>
    obtain ⟨t, a⟩ := p
    by_cases ht : t = s
    · subst ht
      rw [removeSlot, if_pos rfl, lookupSlot, if_neg (fun hc => h hc.symm)]
    · rw [removeSlot, if_neg ht, lookupSlot, lookupSlot]
      by_cases ht' : t = s' <;> simp [ht', ih]

theorem removeSlot_keys_sublist {α : Type} (s : Nat) (l : List (Nat × α)) :
    ((removeSlot s l).map Prod.fst).Sublist (l.map Prod.fst) := by
  induction l with
  | nil => simp [removeSlot]
  | cons p l ih =>
    obtain ⟨t, a⟩ := p
    by_cases ht : t = s
    · simp only [removeSlot, if_pos ht, List.map_cons]
      exact (List.sublist_cons_self _ _)
    · simpa [removeSlot, ht] using ih.cons₂ t

theorem removeSlot_nodup {α : Type} (s : Nat) (l : List (Nat × α))
    (h : (l.map Prod.fst).Nodup) : ((removeSlot s l).map Prod.fst).Nodup :=
  h.sublist (removeSlot_keys_sublist s l)

theorem lookupSlot_removeSlot_self {α : Type} (s : Nat) (l : List (Nat × α))
    (h : (l.map Prod.fst).Nodup) : lookupSlot s (removeSlot s l) = none := by
  induction l with
  | nil => simp [removeSlot, lookupSlot]
  | cons p l ih =>
    obtain ⟨t, a⟩ := p
    simp only [List.map_cons, List.nodup_cons] at h
    by_cases ht : t = s
    · subst ht
      simp only [removeSlot, if_pos rfl]
      rw [lookupSlot_eq_none]
      exact h.1
    · simp [removeSlot, ht, lookupSlot, ih h.2]

/-! ## `foldES` and `invPerm` lemmas -/

theorem foldES_append {α σ ε : Type} (emit : α → σ → Except ε σ)
    (l₁ l₂ : List α) (s : σ) :
    foldES emit (l₁ ++ l₂) s =
      match foldES emit l₁ s with
      | .error e => .error e
      | .ok s' => foldES emit l₂ s' := by
  induction l₁ generalizing s with
  | nil => simp [foldES]
  | cons a l ih =>
    simp only [List.cons_append, foldES]
    cases emit a s <;> simp [ih]

theorem foldES_pure_append {α σ ε : Type} (g : σ → α → σ) (l : List α) (s : σ) :
    foldES (ε := ε) (fun a s => .ok (g s a)) l s = .ok (l.foldl g s) := by
  induction l generalizing s with
  | nil => simp [foldES]
  | cons a l ih => simp [foldES, ih]

theorem invPerm_eq_none {perm : Nat → Nat} {k s : Nat} :
    invPerm perm k s = none ↔ ¬ covered perm k s := by
  rw [invPerm, List.find?_eq_none]
  constructor
  · rintro h ⟨i, hi, hp⟩
    exact absurd (by simpa using hp) (h i (by simpa using hi))
  · intro h i hi hp
    exact h ⟨i, by simpa using hi, by simpa using hp⟩

theorem invPerm_eq_some {perm : Nat → Nat} {k s i : Nat}
    (hinj : ∀ i' < k, ∀ j' < k, perm i' = perm j' → i' = j')
    (hi : i < k) (hp : perm i = s) : invPerm perm k s = some i := by
  match h : invPerm perm k s with
  | none =>
    rw [invPerm_eq_none] at h
    exact absurd ⟨i, hi, hp⟩ h
  | some j =>
    have h' : (List.range k).find? (fun i => perm i == s) = some j := h
    have hmem : j ∈ List.range k := List.mem_of_find?_eq_some h'
    have hpj := List.find?_some h'
    have hj : j < k := List.mem_range.mp hmem
    have hpj' : perm j = s := by simpa using hpj
    have hji : j = i := hinj j hj i hi (hpj'.trans hp.symm)
    rw [hji]

theorem covered_lt {perm : Nat → Nat} {k n j s : Nat}
    (hlt : ∀ i < k, perm i < n) (hjk : j ≤ k) (h : covered perm j s) : s < n := by
  obtain ⟨i, hi, hp⟩ := h
  exact hp ▸ hlt i (lt_of_lt_of_le hi hjk)

theorem covered_mono {perm : Nat → Nat} {j j' s : Nat} (h : j ≤ j')
    (hc : covered perm j s) : covered perm j' s := by
  obtain ⟨i, hi, hp⟩ := hc
  exact ⟨i, lt_of_lt_of_le hi h, hp⟩

/-! ## The shuffler invariant and the slot-order denotation

A complete `put*`/`end` session over a valid permutation equals folding the
`emit` callback over the slot-ordered item sequence `slotSeq`. -/

/-- The item buffered (now or eventually) for slot `s`, relative to the
complete item list. -/
def shufTbl {α : Type} (perm : Nat → Nat) (items : List α) (s : Nat) : Option α :=
  (invPerm perm items.length s).bind items.get?

/-- Invariant of the shuffler state after `j` items were put and the slots
below `c` were emitted: the pending buffer holds exactly the items destined
for not-yet-emitted slots, with no duplicate slots. -/
def GoodCore {α : Type} (perm : Nat → Nat) (items : List α) (j c : Nat)
    (st : ShufState α) : Prop :=
  st.idx = j ∧ st.cursor = c ∧ (st.pending.map Prod.fst).Nodup ∧
  ∀ s, lookupSlot s st.pending =
    if c ≤ s ∧ covered perm j s then shufTbl perm items s else none

theorem goodCore_init {α : Type} (perm : Nat → Nat) (items : List α) :
    GoodCore perm items 0 0 ⟨[], 0, 0⟩ := by
  refine ⟨rfl, rfl, by simp, fun s => ?_⟩
  have : ¬ covered perm 0 s := by rintro ⟨i, hi, -⟩; omega
  simp [lookupSlot, this]

theorem covered_shufTbl {α : Type} {perm : Nat → Nat} {items : List α}
    {j s : Nat} (ph : α)
    (hinj : ∀ a < items.length, ∀ b < items.length, perm a = perm b → a = b)
    (hjk : j ≤ items.length) (h : covered perm j s) :
    ∃ v, shufTbl perm items s = some v ∧ slotItem perm ph items s = v := by
  obtain ⟨i, hij, hp⟩ := h
  have hik : i < items.length := lt_of_lt_of_le hij hjk
  have hip : invPerm perm items.length s = some i := invPerm_eq_some hinj hik hp
  refine ⟨items.get ⟨i, hik⟩, ?_, ?_⟩
  · rw [shufTbl, hip]
    simp [List.get?_eq_getElem?, List.getElem?_eq_getElem hik]
  · simp [slotItem, hip, List.getD_eq_getElem?_getD, List.getElem?_eq_getElem hik]

theorem not_covered_slotItem {α : Type} {perm : Nat → Nat} {items : List α}
    {s : Nat} (ph : α) (h : ¬ covered perm items.length s) :
    slotItem perm ph items s = ph := by
  rw [slotItem, invPerm_eq_none.mpr h]

theorem goodCore_put {α : Type} {perm : Nat → Nat} {items : List α}
    {j c : Nat} {st : ShufState α} {a : α}
    (hinj : ∀ a < items.length, ∀ b < items.length, perm a = perm b → a = b)
    (hst : GoodCore perm items j c st) (hbelow : ∀ s < c, covered perm j s)
    (hj : j < items.length) (ha : items.get? j = some a) :
    GoodCore perm items (j + 1) c
      ⟨(perm st.idx, a) :: st.pending, st.cursor, st.idx + 1⟩ := by
  obtain ⟨hidx, hcur, hnd, hchar⟩ := hst
  have hfresh : ¬ covered perm j (perm j) := by
    rintro ⟨i, hij, hp⟩
    have := hinj i (lt_of_lt_of_le hij hj.le) j hj hp
    omega
  refine ⟨by simp [hidx], by simp [hcur], ?_, fun s => ?_⟩
  · simp only [List.map_cons, List.nodup_cons]
    refine ⟨fun hmem => ?_, hnd⟩
    have hlk : lookupSlot (perm st.idx) st.pending ≠ none := by
      intro h
      rw [lookupSlot_eq_none] at h
      exact h hmem
    rw [hchar] at hlk
    by_cases hcond : c ≤ perm st.idx ∧ covered perm j (perm st.idx)
    · exact hfresh (hidx ▸ hcond.2)
    · simp [hcond] at hlk
  · simp only [lookupSlot]
    by_cases hs : perm st.idx = s
    · rw [if_pos hs]
      have hsj : perm j = s := by rw [← hs, hidx]
      have hcov : covered perm (j + 1) s := ⟨j, by omega, hsj⟩
      have hcle : c ≤ s := by
        by_contra hlt
        exact hfresh (hsj ▸ hbelow s (by omega))
      rw [if_pos ⟨hcle, hcov⟩, shufTbl, invPerm_eq_some hinj hj hsj]
      simp only [Option.some_bind]
      exact ha.symm
    · rw [if_neg hs, hchar]
      have hiff : covered perm (j + 1) s ↔ covered perm j s := by
        constructor
        · rintro ⟨i, hij, hp⟩
          rcases Nat.lt_succ_iff_lt_or_eq.mp hij with hij' | rfl
          · exact ⟨i, hij', hp⟩
          · exact absurd (hidx ▸ hp) hs
        · exact covered_mono (by omega)
      exact (if_congr (and_congr_right fun _ => hiff.symm) rfl rfl)

theorem goodCore_remove {α : Type} {perm : Nat → Nat} {items : List α}
    {j c : Nat} {st : ShufState α}
    (hst : GoodCore perm items j c st) :
    GoodCore perm items j (c + 1)
      ⟨removeSlot st.cursor st.pending, st.cursor + 1, st.idx⟩ := by
  obtain ⟨hidx, hcur, hnd, hchar⟩ := hst
  subst hcur
  refine ⟨hidx, rfl, removeSlot_nodup _ _ hnd, fun s => ?_⟩
  by_cases hs : s = st.cursor
  · subst hs
    rw [lookupSlot_removeSlot_self _ _ hnd, if_neg]
    rintro ⟨hle, -⟩
    omega
  · rw [lookupSlot_removeSlot_ne _ _ _ hs, hchar s]
    have hiff : (st.cursor ≤ s ∧ covered perm j s) ↔
        (st.cursor + 1 ≤ s ∧ covered perm j s) := by
      constructor
      · rintro ⟨h1, h2⟩
        refine ⟨?_, h2⟩
        rcases Nat.eq_or_lt_of_le h1 with h | h
        · exact absurd h.symm hs
        · omega
      · rintro ⟨h1, h2⟩
        exact ⟨by omega, h2⟩
    exact if_congr hiff rfl rfl

theorem drainAux_spec {α σ ε : Type} (perm : Nat → Nat) (items : List α)
    (emit : α → σ → Except ε σ) (ph : α)
    (hinj : ∀ a < items.length, ∀ b < items.length, perm a = perm b → a = b) :
    ∀ (m : Nat) (j c c' : Nat) (st : ShufState α) (s : σ) (fuel : Nat),
      c' - c = m → fuel = st.pending.length →
      GoodCore perm items j c st → j ≤ items.length →
      c ≤ c' → (∀ x, c ≤ x → x < c' → covered perm j x) →
      ¬ covered perm j c' →
      (match foldES emit ((List.range' c (c' - c)).map (slotItem perm ph items)) s with
       | .error e => drainAux emit fuel st s = .error e
       | .ok s₂ => ∃ st', GoodCore perm items j c' st' ∧
           drainAux emit fuel st s = .ok (st', s₂)) := by
  intro m
  induction m with
  | zero =>
    intro j c c' st s fuel hm hfuel hst hjk hcc hcov hnc
    have hcc' : c' = c := by omega
    subst hcc'
    simp only [Nat.sub_self, List.range'_zero, List.map_nil, foldES]
    refine ⟨st, hst, ?_⟩
    obtain ⟨hidx, hcur, hnd, hchar⟩ := hst
    cases fuel with
    | zero => rfl
    | succ f =>
      have hlk : lookupSlot st.cursor st.pending = none := by
        rw [hchar st.cursor, if_neg]
        rintro ⟨-, hcov'⟩
        exact hnc (hcur ▸ hcov')
      simp [drainAux, hlk]
  | succ m ih =>
    intro j c c' st s fuel hm hfuel hst hjk hcc hcov hnc
    have hclt : c < c' := by omega
    have hcovc : covered perm j c := hcov c le_rfl hclt
    obtain ⟨v, htbl, hsi⟩ := covered_shufTbl ph hinj hjk hcovc
    obtain ⟨hidx, hcur, hnd, hchar⟩ := hst
    have hlk : lookupSlot st.cursor st.pending = some v := by
      rw [hcur, hchar c, if_pos ⟨le_rfl, hcovc⟩, htbl]
    cases fuel with
    | zero =>
      exfalso
      have hnil : st.pending = [] := List.length_eq_zero.mp hfuel.symm
      rw [hnil] at hlk
      simp [lookupSlot] at hlk
    | succ f =>
      have hrange : List.range' c (c' - c) = c :: List.range' (c + 1) m := by
        rw [hm, List.range'_succ]
      rw [hrange, List.map_cons, hsi]
      cases hemit : emit v s with
      | error e =>
        simp only [foldES, hemit]
        simp [drainAux, hlk, hemit]
      | ok s' =>
        simp only [foldES, hemit]
        have hst' : GoodCore perm items j (c + 1)
            ⟨removeSlot st.cursor st.pending, st.cursor + 1, st.idx⟩ :=
          goodCore_remove ⟨hidx, hcur, hnd, hchar⟩
        have hfuel' : f = (removeSlot st.cursor st.pending).length := by
          have := removeSlot_length hlk
          omega
        have hrec := ih j (c + 1) c'
          ⟨removeSlot st.cursor st.pending, st.cursor + 1, st.idx⟩
          s' f (by omega) hfuel'
          hst' hjk (by omega) (fun x hx1 hx2 => hcov x (by omega) hx2) hnc
        have hm' : c' - (c + 1) = m := by omega
        rw [hm'] at hrec
        have hstep : drainAux emit (f + 1) st s =
            drainAux emit f ⟨removeSlot st.cursor st.pending, st.cursor + 1, st.idx⟩ s' := by
          simp [drainAux, hlk, hemit]
        rw [hstep]
        exact hrec

theorem shufEndAux_spec {α σ ε : Type} (perm : Nat → Nat) (items : List α)
    (emit : α → σ → Except ε σ) (ph : α) (n : Nat)
    (hinj : ∀ a < items.length, ∀ b < items.length, perm a = perm b → a = b) :
    ∀ (m : Nat) {c : Nat} {st : ShufState α} (s : σ),
      m = n - c → GoodCore perm items items.length c st →
      shufEndAux emit ph m st s =
        foldES emit ((List.range' c m).map (slotItem perm ph items)) s := by
  intro m
  induction m with
  | zero =>
    intro c st s hm hst
    simp [shufEndAux, foldES]
  | succ m ih =>
    intro c st s hm hst
    obtain ⟨hidx, hcur, hnd, hchar⟩ := hst
    have hitem : (lookupSlot st.cursor st.pending).getD ph =
        slotItem perm ph items c := by
      rw [hcur, hchar c]
      by_cases hcov : covered perm items.length c
      · obtain ⟨v, htbl, hsi⟩ := covered_shufTbl ph hinj le_rfl hcov
        rw [if_pos ⟨le_rfl, hcov⟩, htbl, hsi]
        rfl
      · rw [if_neg (fun hc => hcov hc.2), not_covered_slotItem ph hcov]
        rfl
    rw [List.range'_succ, List.map_cons]
    simp only [shufEndAux, foldES, hitem]
    cases hemit : emit (slotItem perm ph items c) s with
    | error e => rfl
    | ok s' =>
      have hst' : GoodCore perm items items.length (c + 1)
          ⟨removeSlot st.cursor st.pending, st.cursor + 1, st.idx⟩ :=
        goodCore_remove ⟨hidx, hcur, hnd, hchar⟩
      exact ih s' (by omega) hst'

/-- The remainder of a shuffler session from an intermediate state: the
remaining `put`s followed by `end()`, with the fail-fast error handling of
the caller's loop in `send.go`. -/
def runCont {α σ ε : Type} (perm : Nat → Nat) (n : Nat) (ph : α)
    (emit : α → σ → Except ε σ) (rest : List α) (st : ShufState α) (s : σ) :
    Except ε σ :=
  match shufPutAll perm emit rest st s with
  | .error e => .error e
  | .ok (st', s') => shufEnd n ph emit st' s'

theorem runFrom_spec {α σ ε : Type} (perm : Nat → Nat) (items : List α)
    (emit : α → σ → Except ε σ) (ph : α) (n : Nat)
    (hinj : ∀ a < items.length, ∀ b < items.length, perm a = perm b → a = b)
    (hlt : ∀ i < items.length, perm i < n)
    (hkn : items.length ≤ n) :
    ∀ (rest : List α) (j : Nat) (c : Nat) (st : ShufState α) (s : σ),
      rest = items.drop j → j ≤ items.length →
      GoodCore perm items j c st → (∀ x < c, covered perm j x) →
      ¬ covered perm j c →
      runCont perm n ph emit rest st s =
        foldES emit ((List.range' c (n - c)).map (slotItem perm ph items)) s := by
  intro rest
  induction rest with
  | nil =>
    intro j c st s hrest hjk hst hbelow hnc
    have hj : j = items.length := by
      have hlen := congrArg List.length hrest
      simp only [List.length_nil, List.length_drop] at hlen
      omega
    subst hj
    have hcur : st.cursor = c := hst.2.1
    show shufEnd n ph emit st s = _
    rw [shufEnd, hcur]
    exact shufEndAux_spec perm items emit ph n hinj (n - c) s rfl hst
  | cons a rest' ih =>
    intro j c st s hrest hjk hst hbelow hnc
    have hlen : j < items.length := by
      by_contra h
      rw [List.drop_eq_nil_of_le (by omega)] at hrest
      simp at hrest
    have ha : items.get? j = some a := by
      have h0 : (items.drop j)[0]? = some a := by rw [← hrest]; simp
      rw [List.getElem?_drop] at h0
      simpa using h0
    have hrest' : rest' = items.drop (j + 1) := by
      have hd := congrArg (List.drop 1) hrest
      simpa [List.drop_drop, Nat.add_comm] using hd
    have hidx : st.idx = j := hst.1
    have hstP : GoodCore perm items (j + 1) c
        ⟨(perm st.idx, a) :: st.pending, st.cursor, st.idx + 1⟩ :=
      goodCore_put hinj hst hbelow hlen ha
    have hcn : c ≤ n := by
      by_contra h
      push_neg at h
      have hcovn : covered perm j n := hbelow n h
      exact absurd (covered_lt hlt hjk hcovn) (lt_irrefl n)
    have hncn : ¬ covered perm (j + 1) n := by
      rintro ⟨i, hi, hp⟩
      have := hlt i (by omega)
      omega
    have hPex : ∃ x, c ≤ x ∧ ¬ covered perm (j + 1) x := ⟨n, hcn, hncn⟩
    have hc'spec := Nat.find_spec hPex
    have hc'le : Nat.find hPex ≤ n := Nat.find_min' hPex ⟨hcn, hncn⟩
    have hcovmid : ∀ x, c ≤ x → x < Nat.find hPex → covered perm (j + 1) x := by
      intro x h1 h2
      by_contra h
      exact Nat.find_min hPex h2 ⟨h1, h⟩
    have hdrain := drainAux_spec perm items emit ph hinj (Nat.find hPex - c)
      (j + 1) c (Nat.find hPex)
      ⟨(perm st.idx, a) :: st.pending, st.cursor, st.idx + 1⟩
      s ((perm st.idx, a) :: st.pending).length rfl rfl hstP (by omega)
      hc'spec.1 hcovmid hc'spec.2
    have hrc : runCont perm n ph emit (a :: rest') st s =
        match drainAux emit ((perm st.idx, a) :: st.pending).length
            ⟨(perm st.idx, a) :: st.pending, st.cursor, st.idx + 1⟩ s with
        | .error e => .error e
        | .ok (st', s') => runCont perm n ph emit rest' st' s' := by
      simp only [runCont, shufPutAll, shufPut]
      cases drainAux emit ((perm st.idx, a) :: st.pending).length
          ⟨(perm st.idx, a) :: st.pending, st.cursor, st.idx + 1⟩ s with
      | error e => rfl
      | ok p =>
        obtain ⟨st', s'⟩ := p
        rfl
    have hsplit : List.range' c (n - c) =
        List.range' c (Nat.find hPex - c) ++ List.range' (Nat.find hPex) (n - Nat.find hPex) := by
      have h1 : c + (Nat.find hPex - c) = Nat.find hPex := by omega
      have h2 : (Nat.find hPex - c) + (n - Nat.find hPex) = n - c := by omega
      calc List.range' c (n - c)
          = List.range' c ((n - Nat.find hPex) + (Nat.find hPex - c)) := by
            rw [Nat.add_comm, h2]
        _ = List.range' c (Nat.find hPex - c) ++
              List.range' (c + (Nat.find hPex - c)) (n - Nat.find hPex) :=
            (List.range'_append_1 _ _ _).symm
        _ = List.range' c (Nat.find hPex - c) ++
              List.range' (Nat.find hPex) (n - Nat.find hPex) := by rw [h1]
    cases hfold : foldES emit
        ((List.range' c (Nat.find hPex - c)).map (slotItem perm ph items)) s with
    | error e =>
      rw [hfold] at hdrain
      have hdr : drainAux emit ((perm st.idx, a) :: st.pending).length
          ⟨(perm st.idx, a) :: st.pending, st.cursor, st.idx + 1⟩ s = .error e := hdrain
      rw [hrc, hdr, hsplit, List.map_append, foldES_append, hfold]
    | ok s₂ =>
      rw [hfold] at hdrain
      have hdrain' : ∃ st', GoodCore perm items (j + 1) (Nat.find hPex) st' ∧
          drainAux emit ((perm st.idx, a) :: st.pending).length
            ⟨(perm st.idx, a) :: st.pending, st.cursor, st.idx + 1⟩ s =
          .ok (st', s₂) := hdrain
      obtain ⟨st', hst', hdr⟩ := hdrain'
      rw [hrc, hdr, hsplit, List.map_append, foldES_append, hfold]
      show runCont perm n ph emit rest' st' s₂ =
        foldES emit ((List.range' (Nat.find hPex) (n - Nat.find hPex)).map
          (slotItem perm ph items)) s₂
      exact ih (j + 1) (Nat.find hPex) st' s₂ hrest' (by omega) hst'
        (fun x hx => by
          rcases Nat.lt_or_ge x c with h | h
          · exact covered_mono (by omega) (hbelow x h)
          · exact hcovmid x h hx)
        hc'spec.2

/-- A complete shuffler session over a valid permutation equals folding the
`emit` callback over the slot-ordered item sequence. -/
theorem runShuffler_eq_foldES {α σ ε : Type} (perm : Nat → Nat) (items : List α)
    (emit : α → σ → Except ε σ) (ph : α) (n : Nat)
    (hinj : ∀ a < items.length, ∀ b < items.length, perm a = perm b → a = b)
    (hlt : ∀ i < items.length, perm i < n)
    (hkn : items.length ≤ n) (s : σ) :
    runShuffler perm n ph emit items s = foldES emit (slotSeq perm ph items n) s := by
  have h0 : ¬ covered perm 0 0 := by rintro ⟨i, hi, -⟩; omega
  have hmain := runFrom_spec perm items emit ph n hinj hlt hkn items 0
    0 ⟨[], 0, 0⟩ s (by simp) (Nat.zero_le _)
    (goodCore_init perm items) (fun x hx => absurd hx (Nat.not_lt_zero x)) h0
  have hrc : runShuffler perm n ph emit items s =
      runCont perm n ph emit items ⟨[], 0, 0⟩ s := rfl
  rw [hrc, hmain, slotSeq, List.range_eq_range', Nat.sub_zero]

/-! ## Bit-stream transport

Folding a `bitEmit`-shaped callback over `n` slots against a byte source
produced by the bit writer consumes the bits in order, leaving exactly the
writer's zero padding in the reader's buffer and the trailing bytes in the
source. -/

/-- Fold a per-item step taking the item and its wishlist bit over a paired
list, short-circuiting on the first error. -/
def foldES2 {α σ ε : Type} (g : α → Bool → σ → Except ε σ) :
    List (α × Bool) → σ → Except ε σ
  | [], u => .ok u
  | (a, b) :: rest, u =>
    match g a b u with
    | .error e => .error e
    | .ok u' => foldES2 g rest u'

theorem foldES2_append {α σ ε : Type} (g : α → Bool → σ → Except ε σ)
    (l₁ l₂ : List (α × Bool)) (u : σ) :
    foldES2 g (l₁ ++ l₂) u =
      match foldES2 g l₁ u with
      | .error e => .error e
      | .ok u' => foldES2 g l₂ u' := by
  induction l₁ generalizing u with
  | nil => simp [foldES2]
  | cons p l ih =>
    obtain ⟨a, b⟩ := p
    simp only [List.cons_append, foldES2]
    cases g a b u <;> simp [ih]

/-- The zero bits left in the reader's buffer after consuming all bits of a
written bit sequence: the writer's final-byte padding. -/
def padBits (wl : List Bool) : List Bool :=
  List.replicate ((8 - wl.length % 8) % 8) false

theorem zip_trunc {α β : Type} :
    ∀ (s : List α) (t ext : List β), s.length ≤ t.length →
      s.zip (t ++ ext) = s.zip t := by
  intro s
  induction s with
  | nil => intro t ext h; simp
  | cons a s ih =>
    intro t ext h
    cases t with
    | nil => simp at h
    | cons b t =>
      simp only [List.cons_append, List.zip_cons_cons]
      rw [ih t ext (by simpa using h)]

theorem zip_append_exact {α β : Type} :
    ∀ (s₁ : List α) (t₁ : List β) (s₂ : List α) (t₂ : List β),
      s₁.length = t₁.length →
      (s₁ ++ s₂).zip (t₁ ++ t₂) = s₁.zip t₁ ++ s₂.zip t₂ := by
  intro s₁
  induction s₁ with
  | nil =>
    intro t₁ s₂ t₂ h
    have : t₁ = [] := List.length_eq_zero.mp (by simpa using h.symm)
    subst this
    simp
  | cons a s ih =>
    intro t₁ s₂ t₂ h
    cases t₁ with
    | nil => simp at h
    | cons b t =>
      simp only [List.cons_append, List.zip_cons_cons]
      rw [ih t s₂ t₂ (by simpa using h)]

theorem byteBits_packByte8 :
    ∀ (a b c d e f g h : Bool),
      byteBits (packByte [a, b, c, d, e, f, g, h]) = [a, b, c, d, e, f, g, h] := by
  decide

theorem byteBits_packByte_len8 :
    ∀ (l : List Bool), l.length = 8 → byteBits (packByte l) = l
  | [a, b, c, d, e, f, g, h], _ => byteBits_packByte8 a b c d e f g h
  | [], h => absurd h (by simp)
  | [_], h => absurd h (by simp)
  | [_, _], h => absurd h (by simp)
  | [_, _, _], h => absurd h (by simp)
  | [_, _, _, _], h => absurd h (by simp)
  | [_, _, _, _, _], h => absurd h (by simp)
  | [_, _, _, _, _, _], h => absurd h (by simp)
  | [_, _, _, _, _, _, _], h => absurd h (by simp)
  | _ :: _ :: _ :: _ :: _ :: _ :: _ :: _ :: _ :: _, h => absurd h (by simp)

theorem packByte_pad (l : List Bool) (h : l.length ≤ 8) :
    packByte (l ++ List.replicate (8 - l.length) false) = packByte l := by
  rw [packByte, packByte]
  congr 1
  have hlen : (l ++ List.replicate (8 - l.length) false).length = 8 := by
    simp only [List.length_append, List.length_replicate]
    omega
  rw [hlen]
  simp

theorem byteBits_packByte_le (l : List Bool) (h : l.length ≤ 8) :
    byteBits (packByte l) = l ++ List.replicate (8 - l.length) false := by
  rw [← packByte_pad l h]
  refine byteBits_packByte_len8 _ ?_
  simp only [List.length_append, List.length_replicate]
  omega

theorem foldES_bitEmit_buf {α σ ε : Type} (err : σ → ε)
    (g : α → Bool → σ → Except ε σ) :
    ∀ (slots : List α) (br : BitReader) (u : σ),
      slots.length ≤ br.buf.length →
      foldES (bitEmit err g) slots (br, u) =
        match foldES2 g (slots.zip br.buf) u with
        | .error e => .error e
        | .ok u' => .ok ((⟨br.src, br.buf.drop slots.length⟩ : BitReader), u') := by
  intro slots
  induction slots with
  | nil =>
    intro br u h
    simp [foldES, foldES2]
  | cons a slots' ih =>
    intro br u h
    obtain ⟨src, buf⟩ := br
    cases buf with
    | nil => simp at h
    | cons b rest =>
      simp only [foldES, bitEmit, readBit]
      simp only [List.zip_cons_cons, foldES2]
      cases hg : g a b u with
      | error e => rfl
      | ok u₁ =>
        have := ih ⟨src, rest⟩ u₁ (by simpa using h)
        simpa using this

theorem foldES_bitEmit_bytes {α σ ε : Type} (err : σ → ε)
    (g : α → Bool → σ → Except ε σ) (eflag : Bool) :
    ∀ (N : Nat) (wl : List Bool) (slots : List α) (tail : List Nat) (u : σ),
      wl.length ≤ N → slots.length = wl.length →
      foldES (bitEmit err g) slots
          ((⟨⟨bitsToBytes wl ++ tail, eflag⟩, []⟩ : BitReader), u) =
        match foldES2 g (slots.zip wl) u with
        | .error e => .error e
        | .ok u' => .ok ((⟨⟨tail, eflag⟩, padBits wl⟩ : BitReader), u') := by
  intro N
  induction N with
  | zero =>
    intro wl slots tail u hN hlen
    have hwl : wl = [] := List.length_eq_zero.mp (by omega)
    subst hwl
    have hs : slots = [] := List.length_eq_zero.mp (by simpa using hlen)
    subst hs
    simp [foldES, foldES2, bitsToBytes, padBits]
  | succ N ihN =>
    intro wl slots tail u hN hlen
    cases wl with
    | nil =>
      have hs : slots = [] := List.length_eq_zero.mp (by simpa using hlen)
      subst hs
      simp [foldES, foldES2, bitsToBytes, padBits]
    | cons b wl'' =>
      cases slots with
      | nil => simp at hlen
      | cons a slots₁ =>
        have hlen₁ : slots₁.length = wl''.length := by simpa using hlen
        have hbb : bitsToBytes (b :: wl'') =
            packByte (b :: wl''.take 7) :: bitsToBytes (wl''.drop 7) := by
          rw [bitsToBytes]
        have ht7 : (wl''.take 7).length ≤ 7 := by
          simp [List.length_take]
        have hunpack : byteBits (packByte (b :: wl''.take 7)) =
            b :: (wl''.take 7 ++
              List.replicate (7 - (wl''.take 7).length) false) := by
          rw [byteBits_packByte_le _ (by simp only [List.length_cons]; omega)]
          have h78 : 8 - (b :: wl''.take 7).length = 7 - (wl''.take 7).length := by
            simp only [List.length_cons]
            omega
          rw [h78]
          simp
        have hread : readBit ⟨⟨bitsToBytes (b :: wl'') ++ tail, eflag⟩, []⟩ =
            .ok (b, ⟨⟨bitsToBytes (wl''.drop 7) ++ tail, eflag⟩,
              wl''.take 7 ++ List.replicate (7 - (wl''.take 7).length) false⟩) := by
          rw [hbb]
          simp only [List.cons_append, readBit, ByteSrc.readByte, hunpack]
        simp only [foldES, bitEmit, hread, List.zip_cons_cons, foldES2]
        cases hg : g a b u with
        | error e => rfl
        | ok u₁ =>
          show foldES (bitEmit err g) slots₁
              ((⟨⟨bitsToBytes (wl''.drop 7) ++ tail, eflag⟩,
                wl''.take 7 ++ List.replicate (7 - (wl''.take 7).length) false⟩ :
                BitReader), u₁) =
            match foldES2 g (slots₁.zip wl'') u₁ with
            | .error e => .error e
            | .ok u' => .ok ((⟨⟨tail, eflag⟩, padBits (b :: wl'')⟩ : BitReader), u')
          rcases le_or_lt wl''.length 7 with hle | hgt
          · -- final partial byte: the remaining slots consume the buffer
            have ht7' : wl''.take 7 = wl'' := List.take_of_length_le hle
            have hd7 : wl''.drop 7 = [] := List.drop_eq_nil_of_le hle
            rw [ht7', hd7]
            have hbuflen : slots₁.length ≤
                (wl'' ++ List.replicate (7 - wl''.length) false).length := by
              simp only [List.length_append, List.length_replicate]
              omega
            rw [foldES_bitEmit_buf err g slots₁
              ⟨⟨bitsToBytes [] ++ tail, eflag⟩,
                wl'' ++ List.replicate (7 - wl''.length) false⟩ u₁ hbuflen]
            rw [zip_trunc slots₁ wl'' _ (le_of_eq hlen₁)]
            cases hfe : foldES2 g (slots₁.zip wl'') u₁ with
            | error e => rfl
            | ok u₂ =>
              have hstate : (⟨⟨bitsToBytes [] ++ tail, eflag⟩,
                  (wl'' ++ List.replicate (7 - wl''.length) false).drop
                    slots₁.length⟩ : BitReader) =
                  ⟨⟨tail, eflag⟩, padBits (b :: wl'')⟩ := by
                congr 1
                · simp [bitsToBytes]
                · rw [hlen₁, List.drop_left, padBits]
                  congr 1
                  simp only [List.length_cons]
                  omega
              rw [hstate]
          · -- full byte: seven buffered bits, then recurse on the rest
            have ht7len : (wl''.take 7).length = 7 := by
              simp only [List.length_take]
              omega
            have hpad0 : List.replicate (7 - (wl''.take 7).length) false =
                ([] : List Bool) := by
              rw [ht7len]
              simp
            rw [hpad0, List.append_nil]
            have hslots : slots₁ = slots₁.take 7 ++ slots₁.drop 7 :=
              (List.take_append_drop 7 slots₁).symm
            conv_lhs => rw [hslots]
            rw [foldES_append]
            have ht7take : (slots₁.take 7).length = 7 := by
              simp only [List.length_take]
              omega
            have hsub := foldES_bitEmit_buf err g (slots₁.take 7)
              ⟨⟨bitsToBytes (wl''.drop 7) ++ tail, eflag⟩, wl''.take 7⟩ u₁
              (by rw [ht7take, ht7len])
            simp only at hsub
            rw [hsub]
            have hzipsplit : slots₁.zip wl'' =
                (slots₁.take 7).zip (wl''.take 7) ++
                (slots₁.drop 7).zip (wl''.drop 7) := by
              conv_lhs => rw [hslots, (List.take_append_drop 7 wl'').symm]
              exact zip_append_exact _ _ _ _ (by rw [ht7take, ht7len])
            rw [hzipsplit, foldES2_append]
            cases hf7 : foldES2 g ((slots₁.take 7).zip (wl''.take 7)) u₁ with
            | error e => rfl
            | ok u₂ =>
              show foldES (bitEmit err g) (slots₁.drop 7)
                  ((⟨⟨bitsToBytes (wl''.drop 7) ++ tail, eflag⟩,
                    (wl''.take 7).drop (slots₁.take 7).length⟩ : BitReader), u₂) =
                match foldES2 g ((slots₁.drop 7).zip (wl''.drop 7)) u₂ with
                | .error e => .error e
                | .ok u' =>
                  .ok ((⟨⟨tail, eflag⟩, padBits (b :: wl'')⟩ : BitReader), u')
              have hdrop7 : (wl''.take 7).drop (slots₁.take 7).length =
                  ([] : List Bool) := by
                rw [ht7take]
                exact List.drop_eq_nil_of_le ht7
              rw [hdrop7]
              rw [ihN (wl''.drop 7) (slots₁.drop 7) tail u₂
                (by simp only [List.length_drop]; simp only [List.length_cons] at hN; omega)
                (by simp only [List.length_drop, hlen₁])]
              have hpad : padBits (wl''.drop 7) = padBits (b :: wl'') := by
                rw [padBits, padBits]
                congr 1
                simp only [List.length_drop, List.length_cons]
                omega
              rw [hpad]

/-! ## Varint round trip -/

theorem readUvarint_writeVarint (n : Nat) (rest : List Nat) :
    readUvarint (writeVarint n ++ rest) = some (n, rest) := by
  induction n using Nat.strong_induction_on with
  | _ n ih =>
    rw [writeVarint]
    by_cases h : n < 128
    · simp [readUvarint, h]
    · have hd : ¬ (n % 128 + 128 < 128) := by omega
      simp only [if_neg h, List.cons_append, readUvarint, if_neg hd]
      rw [ih (n / 128) (Nat.div_lt_self (by omega) (by omega))]
      have heq : n % 128 + 128 - 128 + 128 * (n / 128) = n := by
        have := Nat.mod_add_div n 128
        omega
      show some (n % 128 + 128 - 128 + 128 * (n / 128), rest) = some (n, rest)
      rw [heq]

/-! ## The `forEachChunk` denotation

Combining the shuffler denotation with the bit-stream transport:
`forEachChunk` over a wishlist-backed byte source equals folding the
post-bit step `fecStep` over the slot-ordered keys paired with the
wishlist bits, followed by the trailing-byte check on what remains of the
byte source. -/

theorem forEachChunk_run {σ ε : Type} (storage : SKey → Option Chunk)
    (fileKeys : List SKey) (wl : List Bool) (tailBytes : List Nat)
    (eflag : Bool) (perm : Nat → Nat) (n : Nat)
    (f : Chunk → Bool → σ → Except ε σ) (u0 : σ)
    (hinj : ∀ a < fileKeys.length, ∀ b < fileKeys.length, perm a = perm b → a = b)
    (hlt : ∀ i < fileKeys.length, perm i < n)
    (hkn : fileKeys.length ≤ n)
    (hwl : wl.length = n) :
    forEachChunk storage fileKeys ⟨bitsToBytes wl ++ tailBytes, eflag⟩ perm n f u0 =
      match foldES2 (fecStep storage f)
          ((slotSeq perm emptyKey fileKeys n).zip wl) u0 with
      | .error e => .error e
      | .ok u =>
        match (⟨tailBytes, eflag⟩ : ByteSrc).readByte with
        | .eof => .ok u
        | _ => .error .wishlistTooLong := by
  have hslots : (slotSeq perm emptyKey fileKeys n).length = wl.length := by
    simp [slotSeq, hwl]
  have htrans := foldES_bitEmit_bytes (fun _ => (FErr.wishlistTooShort : FErr ε))
    (fecStep storage f) eflag wl.length wl (slotSeq perm emptyKey fileKeys n)
    tailBytes u0 le_rfl hslots
  simp only [forEachChunk, fecEmit]
  rw [runShuffler_eq_foldES perm fileKeys _ emptyKey n hinj hlt hkn, htrans]
  cases foldES2 (fecStep storage f) ((slotSeq perm emptyKey fileKeys n).zip wl) u0 with
  | error e => rfl
  | ok u => rfl

/-- Lift the per-chunk function's error into the `forEachChunk` error
taxonomy (the wrap performed at `send.go` lines 98–102). -/
def liftF {σ ε : Type} (f : Chunk → Bool → σ → Except ε σ)
    (c : Chunk) (b : Bool) (u : σ) : Except (FErr ε) σ :=
  match f c b u with
  | .ok u' => .ok u'
  | .error e => .error (.userError e)

/-- The chunks `forEachChunk` dispatches to `f`, with their wishlist bits:
the non-placeholder slots resolved through storage, in slot order. -/
def realPairs (storage : SKey → Option Chunk) (pairs : List (SKey × Bool)) :
    List (Chunk × Bool) :=
  pairs.filterMap fun p =>
    if p.1 = emptyKey then none else (storage p.1).map fun c => (c, p.2)

theorem foldES2_fecStep_eq {σ ε : Type} (storage : SKey → Option Chunk)
    (f : Chunk → Bool → σ → Except ε σ) :
    ∀ (pairs : List (SKey × Bool)) (u : σ),
      (∀ k b, (k, b) ∈ pairs → k = emptyKey → b = false) →
      (∀ k b, (k, b) ∈ pairs → k ≠ emptyKey → (storage k).isSome) →
      foldES2 (fecStep storage f) pairs u =
        foldES2 (liftF f) (realPairs storage pairs) u := by
  intro pairs
  induction pairs with
  | nil => intro u _ _; simp [realPairs, foldES2]
  | cons p rest ih =>
    intro u hph hstor
    obtain ⟨k, b⟩ := p
    by_cases hk : k = emptyKey
    · subst hk
      have hb : b = false := hph _ _ (List.mem_cons_self _ _) rfl
      subst hb
      have hstep : fecStep storage f emptyKey false u = .ok u := by
        simp [fecStep]
      simp only [foldES2, hstep, realPairs, List.filterMap_cons, if_pos rfl]
      exact ih u (fun k' b' hm => hph k' b' (List.mem_cons_of_mem _ hm))
        (fun k' b' hm => hstor k' b' (List.mem_cons_of_mem _ hm))
    · have hsome := hstor k b (List.mem_cons_self _ _) hk
      obtain ⟨c, hc⟩ := Option.isSome_iff_exists.mp hsome
      have hstep : fecStep storage f k b u = liftF f c b u := by
        simp [fecStep, hk, hc, liftF]
      simp only [foldES2, hstep, realPairs, List.filterMap_cons, if_neg hk, hc,
        Option.map_some]
      cases liftF f c b u with
      | error e => rfl
      | ok u' =>
        exact ih u' (fun k' b' hm => hph k' b' (List.mem_cons_of_mem _ hm))
          (fun k' b' hm => hstor k' b' (List.mem_cons_of_mem _ hm))

theorem foldES2_liftF_ok {σ ε : Type} (f : Chunk → Bool → σ → Except ε σ)
    (hf : ∀ c b u, ∃ u', f c b u = .ok u') :
    ∀ (pairs : List (Chunk × Bool)) (u : σ),
      ∃ u', foldES2 (liftF f) pairs u = .ok u' := by
  intro pairs
  induction pairs with
  | nil => intro u; exact ⟨u, rfl⟩
  | cons p rest ih =>
    intro u
    obtain ⟨c, b⟩ := p
    obtain ⟨u₁, hu₁⟩ := hf c b u
    obtain ⟨u₂, hu₂⟩ := ih u₁
    refine ⟨u₂, ?_⟩
    simp only [foldES2, liftF, hu₁]
    exact hu₂

/-! ## Closed form of the `WriteChunkData` fold -/

/-- One step of the `WriteChunkData` per-chunk closure, as a pure state
update. -/
def wcdStep (hasCb : Bool) (c : Chunk) (b : Bool) (st : WCDState) : WCDState :=
  { out := st.out ++ (if b then writeVarint c.length ++ c else []),
    toTransfer := st.toTransfer - (if b then 0 else (c.length : Int)),
    transferred := st.transferred + (if b then (c.length : Int) else 0),
    cbLog := st.cbLog ++
      (if hasCb then
        [(st.toTransfer - (if b then 0 else (c.length : Int)),
          st.transferred + (if b then (c.length : Int) else 0))]
      else []) }

theorem wcdF_eq_step (hasCb : Bool) (c : Chunk) (b : Bool) (st : WCDState) :
    wcdF hasCb c b st = .ok (wcdStep hasCb c b st) := by
  cases b <;> cases hasCb <;> simp [wcdF, wcdStep]

/-- The bytes the requested chunks contribute to the data stream, in
processing order. -/
def wcdOut (pairs : List (Chunk × Bool)) : List Nat :=
  (pairs.map fun p => if p.2 then writeVarint p.1.length ++ p.1 else []).flatten

/-- Total size of the requested chunks. -/
def reqSum (pairs : List (Chunk × Bool)) : Int :=
  (pairs.map fun p => if p.2 then (p.1.length : Int) else 0).sum

/-- Total size of the non-requested chunks. -/
def unreqSum (pairs : List (Chunk × Bool)) : Int :=
  (pairs.map fun p => if p.2 then 0 else (p.1.length : Int)).sum

/-- The status snapshots reported after each processed chunk, starting from
the given counters. -/
def wcdSnaps : List (Chunk × Bool) → Int → Int → List (Int × Int)
  | [], _, _ => []
  | (c, b) :: rest, toT, trf =>
    (toT - (if b then 0 else (c.length : Int)),
      trf + (if b then (c.length : Int) else 0)) ::
      wcdSnaps rest (toT - (if b then 0 else (c.length : Int)))
        (trf + (if b then (c.length : Int) else 0))

theorem foldES2_wcdF (hasCb : Bool) :
    ∀ (pairs : List (Chunk × Bool)) (st : WCDState),
      foldES2 (liftF (wcdF hasCb)) pairs st =
        .ok { out := st.out ++ wcdOut pairs,
              toTransfer := st.toTransfer - unreqSum pairs,
              transferred := st.transferred + reqSum pairs,
              cbLog := st.cbLog ++
                (if hasCb then wcdSnaps pairs st.toTransfer st.transferred
                 else []) } := by
  intro pairs
  induction pairs with
  | nil =>
    intro st
    simp [foldES2, wcdOut, reqSum, unreqSum, wcdSnaps]
  | cons p rest ih =>
    intro st
    obtain ⟨c, b⟩ := p
    have hstep : liftF (wcdF hasCb) c b st = .ok (wcdStep hasCb c b st) := by
      rw [liftF, wcdF_eq_step]
    simp only [foldES2, hstep]
    rw [ih (wcdStep hasCb c b st)]
    simp only [wcdStep, wcdOut, reqSum, unreqSum, wcdSnaps, List.map_cons,
      List.flatten_cons, List.sum_cons, Except.ok.injEq, WCDState.mk.injEq]
    refine ⟨by rw [List.append_assoc], by omega, by omega, ?_⟩
    cases hasCb with
    | false => simp
    | true =>
      simp only [if_pos rfl]
      rw [List.append_assoc]
      rfl

theorem wcdSnaps_chain :
    ∀ (pairs : List (Chunk × Bool)) (toT trf : Int),
      List.Chain' (fun p q : Int × Int => q.1 ≤ p.1 ∧ p.2 ≤ q.2)
        ((toT, trf) :: wcdSnaps pairs toT trf) := by
  intro pairs
  induction pairs with
  | nil => intro toT trf; exact List.chain'_singleton _
  | cons p rest ih =>
    intro toT trf
    obtain ⟨c, b⟩ := p
    rw [wcdSnaps]
    refine List.Chain'.cons ?_ (ih _ _)
    constructor
    · cases b <;> simp
    · cases b <;> simp

theorem reqSum_add_unreqSum (pairs : List (Chunk × Bool)) :
    reqSum pairs + unreqSum pairs =
      (pairs.map fun p => ((p.1.length : Int))).sum := by
  induction pairs with
  | nil => simp [reqSum, unreqSum]
  | cons p rest ih =>
    obtain ⟨c, b⟩ := p
    simp only [reqSum, unreqSum, List.map_cons, List.sum_cons] at ih ⊢
    cases b <;> simp <;> omega

/-! ## Generic invariant preservation through a shuffler session -/

/-- A postcondition on a fallible result: `P` on success, `Q` on the error. -/
def ExOK {σ ε : Type} (P : σ → Prop) (Q : ε → Prop) : Except ε σ → Prop
  | .ok s => P s
  | .error e => Q e

theorem drainAux_preserve {α σ ε : Type} (emit : α → σ → Except ε σ)
    (P : σ → Prop) (Q : ε → Prop)
    (hemit : ∀ a s, P s →
      (∀ s', emit a s = .ok s' → P s') ∧ (∀ e, emit a s = .error e → Q e)) :
    ∀ (fuel : Nat) (st : ShufState α) (s : σ), P s →
      ExOK (fun p => P p.2) Q (drainAux emit fuel st s) := by
  intro fuel
  induction fuel with
  | zero => intro st s hP; exact hP
  | succ fuel ih =>
    intro st s hP
    cases hlk : lookupSlot st.cursor st.pending with
    | none =>
      simp only [drainAux, hlk]
      exact hP
    | some a =>
      cases hem : emit a s with
      | error e =>
        simp only [drainAux, hlk, hem]
        exact (hemit a s hP).2 e hem
      | ok s₁ =>
        simp only [drainAux, hlk, hem]
        exact ih _ s₁ ((hemit a s hP).1 s₁ hem)

theorem shufPutAll_preserve {α σ ε : Type} (perm : Nat → Nat)
    (emit : α → σ → Except ε σ) (P : σ → Prop) (Q : ε → Prop)
    (hemit : ∀ a s, P s →
      (∀ s', emit a s = .ok s' → P s') ∧ (∀ e, emit a s = .error e → Q e)) :
    ∀ (items : List α) (st : ShufState α) (s : σ), P s →
      ExOK (fun p => P p.2) Q (shufPutAll perm emit items st s) := by
  intro items
  induction items with
  | nil => intro st s hP; exact hP
  | cons a rest ih =>
    intro st s hP
    have hput : ExOK (fun p => P p.2) Q (shufPut perm emit a st s) :=
      drainAux_preserve emit P Q hemit _ _ s hP
    cases hd : shufPut perm emit a st s with
    | error e =>
      simp only [shufPutAll, hd]
      rw [hd] at hput
      exact hput
    | ok p =>
      obtain ⟨st₁, s₁⟩ := p
      simp only [shufPutAll, hd]
      rw [hd] at hput
      exact ih st₁ s₁ hput

theorem shufEndAux_preserve {α σ ε : Type} (emit : α → σ → Except ε σ) (ph : α)
    (P : σ → Prop) (Q : ε → Prop)
    (hemit : ∀ a s, P s →
      (∀ s', emit a s = .ok s' → P s') ∧ (∀ e, emit a s = .error e → Q e)) :
    ∀ (fuel : Nat) (st : ShufState α) (s : σ), P s →
      ExOK P Q (shufEndAux emit ph fuel st s) := by
  intro fuel
  induction fuel with
  | zero => intro st s hP; exact hP
  | succ fuel ih =>
    intro st s hP
    cases hem : emit ((lookupSlot st.cursor st.pending).getD ph) s with
    | error e =>
      simp only [shufEndAux, hem]
      exact (hemit _ s hP).2 e hem
    | ok s₁ =>
      simp only [shufEndAux, hem]
      exact ih _ s₁ ((hemit _ s hP).1 s₁ hem)

theorem runShuffler_preserve {α σ ε : Type} (perm : Nat → Nat) (n : Nat)
    (ph : α) (emit : α → σ → Except ε σ) (P : σ → Prop) (Q : ε → Prop)
    (hemit : ∀ a s, P s →
      (∀ s', emit a s = .ok s' → P s') ∧ (∀ e, emit a s = .error e → Q e))
    (items : List α) (s : σ) (hP : P s) :
    ExOK P Q (runShuffler perm n ph emit items s) := by
  have hput : ExOK (fun p => P p.2) Q (shufPutAll perm emit items ⟨[], 0, 0⟩ s) :=
    shufPutAll_preserve perm emit P Q hemit items _ s hP
  cases hd : shufPutAll perm emit items ⟨[], 0, 0⟩ s with
  | error e =>
    simp only [runShuffler, hd]
    rw [hd] at hput
    exact hput
  | ok p =>
    obtain ⟨st₁, s₁⟩ := p
    simp only [runShuffler, hd]
    rw [hd] at hput
    exact shufEndAux_preserve emit ph P Q hemit _ st₁ s₁ hput

/-! ## Well-scopedness of handle events -/

theorem wellScoped_append_pair (k : SKey) :
    ∀ (l : List Ev), wellScoped l = true →
      wellScoped (l ++ [.get k, .dispose k]) = true := by
  intro l
  induction l using wellScoped.induct with
  | case1 =>
    intro _
    simp [wellScoped]
  | case2 k₁ k₂ rest ih =>
    intro h
    rw [wellScoped] at h
    simp only [Bool.and_eq_true, decide_eq_true_eq] at h
    simp only [List.cons_append, wellScoped, Bool.and_eq_true, decide_eq_true_eq]
    exact ⟨h.1, ih h.2⟩
  | case3 l h1 h2 =>
    intro h
    exfalso
    rcases l with _ | ⟨x, _ | ⟨y, rest⟩⟩
    · exact h1 rfl
    · cases x <;> simp [wellScoped] at h
    · cases x <;> cases y <;> first
        | exact h2 _ _ _ rfl
        | simp [wellScoped] at h

/-- Is an event a handle acquisition? -/
def isGet : Ev → Bool
  | .get _ => true
  | _ => false

/-- Is an event a handle disposal? -/
def isDispose : Ev → Bool
  | .dispose _ => true
  | _ => false

theorem wellScoped_counts :
    ∀ (l : List Ev), wellScoped l = true →
      l.countP isGet = l.countP isDispose := by
  intro l
  induction l using wellScoped.induct with
  | case1 => intro _; rfl
  | case2 k₁ k₂ rest ih =>
    intro h
    rw [wellScoped] at h
    simp only [Bool.and_eq_true, decide_eq_true_eq] at h
    simp only [List.countP_cons, isGet, isDispose]
    rw [ih h.2]
    simp
  | case3 l h1 h2 =>
    intro h
    exfalso
    rcases l with _ | ⟨x, _ | ⟨y, rest⟩⟩
    · exact h1 rfl
    · cases x <;> simp [wellScoped] at h
    · cases x <;> cases y <;> first
        | exact h2 _ _ _ rfl
        | simp [wellScoped] at h

theorem fecStepTr_preserve {σ ε : Type} (storage : SKey → Option Chunk)
    (f : Chunk → Bool → σ → Except ε σ) (key : SKey) (b : Bool)
    (p : List Ev × σ) (hP : wellScoped (p.1.filter isGD) = true) :
    (∀ p', fecStepTr storage f key b p = .ok p' →
      wellScoped (p'.1.filter isGD) = true) ∧
    (∀ e, fecStepTr storage f key b p = .error e →
      wellScoped (e.2.filter isGD) = true) := by
  have hgrow : wellScoped ((p.1 ++
      [Ev.get key, Ev.call key b, Ev.dispose key]).filter isGD) = true := by
    rw [List.filter_append]
    have hfl : [Ev.get key, Ev.call key b, Ev.dispose key].filter isGD =
        [Ev.get key, Ev.dispose key] := by
      simp [isGD]
    rw [hfl]
    exact wellScoped_append_pair key _ hP
  by_cases hk : key = emptyKey
  · subst hk
    cases b with
    | true =>
      have heval : fecStepTr storage f emptyKey true p =
          .error (.spuriousRequest, p.1) := by
        simp [fecStepTr]
      constructor
      · intro p' h
        rw [heval] at h
        exact Except.noConfusion h
      · intro e h
        rw [heval] at h
        rw [← Except.error.inj h]
        exact hP
    | false =>
      have heval : fecStepTr storage f emptyKey false p = .ok p := by
        simp [fecStepTr]
      constructor
      · intro p' h
        rw [heval] at h
        rw [← Except.ok.inj h]
        exact hP
      · intro e h
        rw [heval] at h
        exact Except.noConfusion h
  · cases hs : storage key with
    | none =>
      have heval : fecStepTr storage f key b p = .error (.storageError, p.1) := by
        simp [fecStepTr, hk, hs]
      constructor
      · intro p' h
        rw [heval] at h
        exact Except.noConfusion h
      · intro e h
        rw [heval] at h
        rw [← Except.error.inj h]
        exact hP
    | some chunk =>
      cases hf : f chunk b p.2 with
      | ok u' =>
        have heval : fecStepTr storage f key b p =
            .ok (p.1 ++ [Ev.get key, Ev.call key b, Ev.dispose key], u') := by
          simp [fecStepTr, hk, hs, hf]
        constructor
        · intro p' h
          rw [heval] at h
          rw [← Except.ok.inj h]
          exact hgrow
        · intro e h
          rw [heval] at h
          exact Except.noConfusion h
      | error e0 =>
        have heval : fecStepTr storage f key b p =
            .error (.userError e0,
              p.1 ++ [Ev.get key, Ev.call key b, Ev.dispose key]) := by
          simp [fecStepTr, hk, hs, hf]
        constructor
        · intro p' h
          rw [heval] at h
          exact Except.noConfusion h
        · intro e h
          rw [heval] at h
          rw [← Except.error.inj h]
          exact hgrow

theorem bitEmit_preserve {α σ ε : Type} (err : σ → ε)
    (g : α → Bool → σ → Except ε σ) (P : σ → Prop) (Q : ε → Prop)
    (herr : ∀ s, P s → Q (err s))
    (hg : ∀ a b s, P s →
      (∀ s', g a b s = .ok s' → P s') ∧ (∀ e, g a b s = .error e → Q e)) :
    ∀ (a : α) (st : BitReader × σ), P st.2 →
      (∀ st', bitEmit err g a st = .ok st' → P st'.2) ∧
      (∀ e, bitEmit err g a st = .error e → Q e) := by
  intro a st hP
  cases hrb : readBit st.1 with
  | error e0 =>
    constructor
    · intro st' h
      simp [bitEmit, hrb] at h
    · intro e h
      simp only [bitEmit, hrb, Except.error.injEq] at h
      rw [← h]
      exact herr st.2 hP
  | ok pr =>
    obtain ⟨b, br'⟩ := pr
    cases hg' : g a b st.2 with
    | error e0 =>
      constructor
      · intro st' h
        simp [bitEmit, hrb, hg'] at h
      · intro e h
        simp only [bitEmit, hrb, hg', Except.error.injEq] at h
        rw [← h]
        exact (hg a b st.2 hP).2 e0 hg'
    | ok u' =>
      constructor
      · intro st' h
        simp only [bitEmit, hrb, hg', Except.ok.injEq] at h
        rw [← h]
        exact (hg a b st.2 hP).1 u' hg'
      · intro e h
        simp [bitEmit, hrb, hg'] at h

theorem forEachChunkTr_preserve {σ ε : Type} (storage : SKey → Option Chunk)
    (fileKeys : List SKey) (src : ByteSrc) (perm : Nat → Nat) (n : Nat)
    (f : Chunk → Bool → σ → Except ε σ) (u0 : σ) :
    wellScoped ((forEachChunkTr storage fileKeys src perm n f u0).1.filter
      isGD) = true := by
  have hemit : ∀ (a : SKey) (s : BitReader × (List Ev × σ)),
      wellScoped (s.2.1.filter isGD) = true →
      (∀ s', fecEmitTr storage f a s = .ok s' →
        wellScoped (s'.2.1.filter isGD) = true) ∧
      (∀ e, fecEmitTr storage f a s = .error e →
        wellScoped (e.2.filter isGD) = true) := by
    intro a s hP
    exact bitEmit_preserve (fun p => ((.wishlistTooShort, p.1) : FErr ε × List Ev))
      (fecStepTr storage f)
      (fun p => wellScoped (p.1.filter isGD) = true)
      (fun e => wellScoped (e.2.filter isGD) = true)
      (fun s hs => hs)
      (fun a b s hs => fecStepTr_preserve storage f a b s hs) a s hP
  have hpres := runShuffler_preserve perm n emptyKey (fecEmitTr storage f)
    (fun st => wellScoped (st.2.1.filter isGD) = true)
    (fun e => wellScoped (e.2.filter isGD) = true)
    hemit fileKeys (⟨src, []⟩, ([], u0)) (by simp [wellScoped])
  cases hr : runShuffler perm n emptyKey (fecEmitTr storage f) fileKeys
      (⟨src, []⟩, ([], u0)) with
  | error p =>
    obtain ⟨e, tr⟩ := p
    rw [hr] at hpres
    simp only [forEachChunkTr, hr]
    exact hpres
  | ok p =>
    obtain ⟨br, tr, u⟩ := p
    rw [hr] at hpres
    simp only [forEachChunkTr, hr]
    cases br.src.readByte <;> exact hpres

/-! ## Slot descriptors

The content of every protocol phase is determined by the per-slot
descriptor list: for each slot in order, the file chunk destined for it, if
any.  Each phase's output is a `map`/`filterMap` over this list, which the
following lemmas establish. -/

/-- The per-slot chunk descriptors of a session: for each slot `s < n`, the
chunk whose destination is `s`, if any. -/
def dsOf (file : List Chunk) (perm : Nat → Nat) (n : Nat) : List (Option Chunk) :=
  (List.range n).map fun s => (invPerm perm file.length s).bind file.get?

/-- The hash-list entry a slot carries. -/
def entryOf (hash : Chunk → SKey) : Option Chunk → SKey × Nat
  | some c => (hash c, c.length)
  | none => (emptyKey, 0)

/-- The key a slot carries. -/
def keyOf (hash : Chunk → SKey) : Option Chunk → SKey
  | some c => hash c
  | none => emptyKey

/-- The receiver's wishlist bit for a slot. -/
def bitOf (hash : Chunk → SKey) (storeB : SKey → Option Chunk) :
    Option Chunk → Bool
  | some c => decide (hash c ≠ emptyKey ∧ storeB (hash c) = none)
  | none => false

/-- The bytes a slot contributes to the chunk-data stream. -/
def dataOf (hash : Chunk → SKey) (storeB : SKey → Option Chunk) :
    Option Chunk → List Nat
  | some c =>
    if bitOf hash storeB (some c) then writeVarint c.length ++ c else []
  | none => []

/-- The chunk/bit pair a slot dispatches to the per-chunk function. -/
def sentOf (hash : Chunk → SKey) (storeB : SKey → Option Chunk) :
    Option Chunk → Option (Chunk × Bool)
  | some c => some (c, bitOf hash storeB (some c))
  | none => none

theorem invPerm_lt {perm : Nat → Nat} {k s i : Nat}
    (h : invPerm perm k s = some i) : i < k := by
  have h' : (List.range k).find? (fun i => perm i == s) = some i := h
  have := List.mem_of_find?_eq_some h'
  simpa using this

theorem slotSeq_pairs_eq_ds (hash : Chunk → SKey) (file : List Chunk)
    (perm : Nat → Nat) (n : Nat) :
    slotSeq perm (emptyKey, 0) (file.map fun c => (hash c, c.length)) n =
      (dsOf file perm n).map (entryOf hash) := by
  rw [slotSeq, dsOf, List.map_map]
  apply List.map_congr_left
  intro s _
  simp only [Function.comp]
  rw [slotItem]
  have hlen : (file.map fun c => (hash c, c.length)).length = file.length := by
    simp
  rw [hlen]
  cases hip : invPerm perm file.length s with
  | none => simp [entryOf]
  | some i =>
    have hik : i < file.length := invPerm_lt hip
    simp only [Option.some_bind]
    rw [List.getD_eq_getElem?_getD, List.getElem?_map,
      List.getElem?_eq_getElem hik]
    simp [entryOf, List.get?_eq_getElem?, List.getElem?_eq_getElem hik]

theorem slotSeq_keys_eq_ds (hash : Chunk → SKey) (file : List Chunk)
    (perm : Nat → Nat) (n : Nat) :
    slotSeq perm emptyKey (file.map hash) n =
      (dsOf file perm n).map (keyOf hash) := by
  rw [slotSeq, dsOf, List.map_map]
  apply List.map_congr_left
  intro s _
  simp only [Function.comp]
  rw [slotItem]
  have hlen : (file.map hash).length = file.length := by simp
  rw [hlen]
  cases hip : invPerm perm file.length s with
  | none => simp [keyOf]
  | some i =>
    have hik : i < file.length := invPerm_lt hip
    simp only [Option.some_bind]
    rw [List.getD_eq_getElem?_getD, List.getElem?_map,
      List.getElem?_eq_getElem hik]
    simp [keyOf, List.get?_eq_getElem?, List.getElem?_eq_getElem hik]

theorem mem_dsOf {file : List Chunk} {perm : Nat → Nat} {n : Nat}
    {d : Option Chunk} (h : d ∈ dsOf file perm n) :
    d = none ∨ ∃ c, c ∈ file ∧ d = some c := by
  rw [dsOf] at h
  obtain ⟨s, -, hs⟩ := List.mem_map.mp h
  cases hip : invPerm perm file.length s with
  | none =>
    left
    rw [← hs, hip]
    rfl
  | some i =>
    have hik : i < file.length := invPerm_lt hip
    right
    refine ⟨file.get ⟨i, hik⟩, List.get_mem _ _ hik, ?_⟩
    rw [← hs, hip]
    simp [List.get?_eq_getElem?, List.getElem?_eq_getElem hik]

theorem wishBits_eq_ds (hash : Chunk → SKey) (storeB : SKey → Option Chunk)
    (file : List Chunk) (perm : Nat → Nat) (n : Nat) :
    wishBits storeB ((dsOf file perm n).map (entryOf hash)) =
      (dsOf file perm n).map (bitOf hash storeB) := by
  rw [wishBits, List.map_map]
  apply List.map_congr_left
  intro d _
  cases d with
  | none => simp [entryOf, bitOf]
  | some c => simp [entryOf, bitOf]

/-! ## Receiver phase lemmas over slot descriptors -/

theorem parseEntries_flatten :
    ∀ (entries : List (SKey × Nat)) (rest : List Nat),
      (∀ e ∈ entries, e.1.length = keyLen) →
      parseEntries entries.length
          ((entries.map fun e => e.1 ++ writeVarint e.2).flatten ++ rest) =
        some (entries, rest) := by
  intro entries
  induction entries with
  | nil => intro rest _; simp [parseEntries]
  | cons e entries' ih =>
    intro rest hkl
    obtain ⟨key, sz⟩ := e
    have hklen : key.length = keyLen := hkl _ (List.mem_cons_self _ _)
    simp only [List.map_cons, List.flatten_cons, List.length_cons]
    rw [parseEntries]
    have hstream : (key ++ writeVarint sz) ++
        ((entries'.map fun e => e.1 ++ writeVarint e.2).flatten ++ rest) =
        key ++ (writeVarint sz ++
          ((entries'.map fun e => e.1 ++ writeVarint e.2).flatten ++ rest)) := by
      simp [List.append_assoc]
    rw [List.append_assoc, hstream]
    have hge : ¬ ((key ++ (writeVarint sz ++
        ((entries'.map fun e => e.1 ++ writeVarint e.2).flatten ++ rest))).length
          < keyLen) := by
      simp only [List.length_append]
      omega
    have hparse := ih rest (fun e he => hkl e (List.mem_cons_of_mem _ he))
    simp only [if_neg hge, List.drop_left' hklen, readUvarint_writeVarint,
      hparse, List.take_left' hklen]

theorem recoverSlots_ds (hash : Chunk → SKey) (storeB : SKey → Option Chunk) :
    ∀ (ds : List (Option Chunk)) (rest : List Nat),
      (∀ c, some c ∈ ds → hash c ≠ emptyKey ∧
        ∀ c', storeB (hash c) = some c' → c' = c) →
      recoverSlots storeB
          ((ds.map (entryOf hash)).zip (ds.map (bitOf hash storeB)))
          ((ds.map (dataOf hash storeB)).flatten ++ rest) = some (ds, rest) := by
  intro ds
  induction ds with
  | nil => intro rest _; simp [recoverSlots]
  | cons d ds' ih =>
    intro rest hds
    have hds' : ∀ c, some c ∈ ds' → hash c ≠ emptyKey ∧
        ∀ c', storeB (hash c) = some c' → c' = c :=
      fun c hm => hds c (List.mem_cons_of_mem _ hm)
    cases d with
    | none =>
      simp only [List.map_cons, List.zip_cons_cons, List.flatten_cons, entryOf,
        bitOf, dataOf, List.nil_append]
      rw [recoverSlots, if_pos rfl, ih rest hds']
    | some c =>
      obtain ⟨hne, hcons⟩ := hds c (List.mem_cons_self _ _)
      simp only [List.map_cons, List.zip_cons_cons, List.flatten_cons, entryOf,
        dataOf]
      rw [recoverSlots, if_neg hne]
      cases hsb : storeB (hash c) with
      | none =>
        have hbit : bitOf hash storeB (some c) = true := by
          simp [bitOf, hne, hsb]
        have hlen : ¬ ((c ++ ((ds'.map (dataOf hash storeB)).flatten ++ rest)).length
            < c.length) := by
          simp only [List.length_append]
          omega
        simp only [hbit, if_true, List.append_assoc, readUvarint_writeVarint,
          if_neg hlen, List.drop_left, ih rest hds', List.take_left]
      | some c₀ =>
        have hbit : bitOf hash storeB (some c) = false := by
          simp [bitOf, hne, hsb]
        simp only [hbit, Bool.false_eq_true, if_false, hsb, List.nil_append,
          hcons c₀ hsb, ih rest hds']

theorem realPairs_ds (hash : Chunk → SKey) (storage storeB : SKey → Option Chunk)
    (ds : List (Option Chunk))
    (hds : ∀ c, some c ∈ ds → hash c ≠ emptyKey ∧ storage (hash c) = some c) :
    realPairs storage
        ((ds.map (keyOf hash)).zip (ds.map (bitOf hash storeB))) =
      ds.filterMap (sentOf hash storeB) := by
  rw [List.zip_map' (keyOf hash) (bitOf hash storeB) ds, realPairs,
    List.filterMap_map]
  apply List.filterMap_congr
  intro d hd
  cases d with
  | none => simp [keyOf, sentOf, emptyKey]
  | some c =>
    obtain ⟨hne, hsome⟩ := hds c hd
    simp only [Function.comp, keyOf, if_neg hne, hsome, sentOf]
    rfl

theorem wcdOut_ds (hash : Chunk → SKey) (storeB : SKey → Option Chunk) :
    ∀ (ds : List (Option Chunk)),
      wcdOut (ds.filterMap (sentOf hash storeB)) =
        (ds.map (dataOf hash storeB)).flatten := by
  intro ds
  induction ds with
  | nil => simp [wcdOut]
  | cons d ds' ih =>
    cases d with
    | none =>
      simp only [List.filterMap_cons, sentOf, List.map_cons, dataOf,
        List.flatten_cons, List.nil_append]
      exact ih
    | some c =>
      simp only [List.filterMap_cons, sentOf, List.map_cons, dataOf,
        List.flatten_cons, wcdOut, List.map_cons, List.flatten_cons] at ih ⊢
      rw [ih]

/-! ## Output of `WriteChunkHashes` -/

theorem foldl_hashEnc :
    ∀ (l : List (SKey × Nat)) (init : List Nat),
      l.foldl (fun acc e => acc ++ e.1 ++ writeVarint e.2) init =
        init ++ (l.map fun e => e.1 ++ writeVarint e.2).flatten := by
  intro l
  induction l with
  | nil => intro init; simp
  | cons e l ih =>
    intro init
    simp only [List.foldl_cons, List.map_cons, List.flatten_cons, ih]
    simp [List.append_assoc]

theorem WriteChunkHashes_eq (hash : Chunk → SKey) (file : List Chunk)
    (perm : Nat → Nat) (n : Nat)
    (hinj : ∀ a < file.length, ∀ b < file.length, perm a = perm b → a = b)
    (hlt : ∀ i < file.length, perm i < n) (hkn : file.length ≤ n) :
    WriteChunkHashes hash file perm n =
      .ok (((dsOf file perm n).map fun d =>
        (entryOf hash d).1 ++ writeVarint (entryOf hash d).2).flatten) := by
  rw [WriteChunkHashes]
  have hlen : (file.map fun c => (hash c, c.length)).length = file.length := by
    simp
  rw [runShuffler_eq_foldES _ _ _ _ n (by rw [hlen]; exact hinj)
    (by rw [hlen]; exact hlt) (by rw [hlen]; exact hkn)]
  rw [foldES_pure_append (fun out (c : SKey × Nat) => out ++ c.1 ++ writeVarint c.2)]
  rw [foldl_hashEnc, slotSeq_pairs_eq_ds]
  simp only [List.map_map, List.nil_append]
  rfl

/-! ## The complete `WriteChunkData` run -/

theorem WriteChunkData_run (hash : Chunk → SKey) (storage : SKey → Option Chunk)
    (file : List Chunk) (wl : List Bool) (perm : Nat → Nat) (n : Nat)
    (hasCb : Bool)
    (hinj : ∀ a < file.length, ∀ b < file.length, perm a = perm b → a = b)
    (hlt : ∀ i < file.length, perm i < n) (hkn : file.length ≤ n)
    (hwl : wl.length = n)
    (hph : ∀ k b, (k, b) ∈ (slotSeq perm emptyKey (file.map hash) n).zip wl →
      k = emptyKey → b = false)
    (hst : ∀ k b, (k, b) ∈ (slotSeq perm emptyKey (file.map hash) n).zip wl →
      k ≠ emptyKey → (storage k).isSome) :
    WriteChunkData hash storage file ⟨bitsToBytes wl, false⟩ perm n hasCb =
      .ok { out := wcdOut (realPairs storage
              ((slotSeq perm emptyKey (file.map hash) n).zip wl)),
            toTransfer := fileSize file - unreqSum (realPairs storage
              ((slotSeq perm emptyKey (file.map hash) n).zip wl)),
            transferred := reqSum (realPairs storage
              ((slotSeq perm emptyKey (file.map hash) n).zip wl)),
            cbLog := if hasCb then
                (fileSize file, 0) :: wcdSnaps (realPairs storage
                  ((slotSeq perm emptyKey (file.map hash) n).zip wl))
                  (fileSize file) 0
              else [] } := by
  rw [WriteChunkData]
  have hsrc : (⟨bitsToBytes wl, false⟩ : ByteSrc) =
      ⟨bitsToBytes wl ++ [], false⟩ := by
    simp
  have hlen : (file.map hash).length = file.length := by simp
  rw [hsrc, forEachChunk_run storage (file.map hash) wl [] false perm n
    (wcdF hasCb) _ (by rw [hlen]; exact hinj) (by rw [hlen]; exact hlt)
    (by rw [hlen]; exact hkn) hwl]
  rw [foldES2_fecStep_eq storage (wcdF hasCb) _ _ hph hst]
  rw [foldES2_wcdF]
  cases hasCb with
  | false => simp [ByteSrc.readByte]
  | true => simp [ByteSrc.readByte]

/-! ## The reassembled chunk list -/

theorem filterMap_range_get? {α : Type} :
    ∀ (l : List α), (List.range l.length).filterMap (fun i => l.get? i) = l := by
  intro l
  induction l with
  | nil => simp
  | cons a l ih =>
    rw [List.length_cons, List.range_succ_eq_map, List.filterMap_cons,
      List.filterMap_map]
    simp only [List.get?_eq_getElem?, List.getElem?_cons_zero]
    have hcomp : ((fun i => (a :: l)[i]?) ∘ (· + 1)) = fun i => l[i]? := by
      funext i
      simp
    rw [hcomp]
    simp only [List.get?_eq_getElem?] at ih
    rw [ih]

theorem reassemble_ds (file : List Chunk) (perm : Nat → Nat) (n : Nat)
    (hinjN : ∀ a < n, ∀ b < n, perm a = perm b → a = b)
    (hltN : ∀ i < n, perm i < n)
    (hkn : file.length ≤ n) :
    reassemble perm n (dsOf file perm n) = file := by
  rw [reassemble]
  have hgd : ∀ i ∈ List.range n,
      (dsOf file perm n).getD (perm i) none = file.get? i := by
    intro i hi
    have hin : i < n := List.mem_range.mp hi
    have hpin : perm i < n := hltN i hin
    rw [dsOf, List.getD_eq_getElem?_getD, List.getElem?_map,
      List.getElem?_range hpin]
    simp only [Option.map_some', Option.getD_some]
    by_cases hik : i < file.length
    · rw [invPerm_eq_some (fun a ha b hb => hinjN a (lt_of_lt_of_le ha hkn) b
        (lt_of_lt_of_le hb hkn)) hik rfl]
      simp
    · have hnone : invPerm perm file.length (perm i) = none := by
        rw [invPerm_eq_none]
        rintro ⟨i', hi', hp⟩
        have := hinjN i' (lt_of_lt_of_le hi' hkn) i hin hp
        omega
      rw [hnone]
      simp only [Option.none_bind]
      rw [eq_comm, List.get?_eq_getElem?, List.getElem?_eq_none]
      omega
  rw [List.filterMap_congr hgd]
  have hsplit : List.range n = List.range file.length ++
      List.range' file.length (n - file.length) := by
    rw [List.range_eq_range']
    have h2 : file.length + (n - file.length) = n := by omega
    calc List.range' 0 n
        = List.range' 0 ((n - file.length) + file.length) := by
          rw [Nat.add_comm]
          congr 1
          omega
      _ = List.range' 0 file.length ++
            List.range' (0 + file.length) (n - file.length) :=
          (List.range'_append_1 _ _ _).symm
      _ = List.range' 0 file.length ++
            List.range' file.length (n - file.length) := by
          rw [Nat.zero_add]
      _ = List.range file.length ++
            List.range' file.length (n - file.length) := by
          rw [← List.range_eq_range']
  rw [hsplit, List.filterMap_append, filterMap_range_get?]
  have hnil : (List.range' file.length (n - file.length)).filterMap
      (fun i => file.get? i) = [] := by
    rw [List.filterMap_eq_nil_iff]
    intro i hi
    have : file.length ≤ i := (List.mem_range'_1.mp hi).1
    rw [List.get?_eq_getElem?, List.getElem?_eq_none]
    omega
  rw [hnil, List.append_nil]

/-! ## The dispatched chunks carry the whole file size -/

theorem list_sum_range {M : Type} [AddCommMonoid M] (f : Nat → M) :
    ∀ (n : Nat), ((List.range n).map f).sum = ∑ s ∈ Finset.range n, f s := by
  intro n
  induction n with
  | zero => simp
  | succ n ih =>
    rw [List.range_succ, List.map_append, List.sum_append,
      Finset.sum_range_succ, ih]
    simp

theorem sum_filterMap_sent (hash : Chunk → SKey) (storeB : SKey → Option Chunk) :
    ∀ (ds : List (Option Chunk)),
      (((ds.filterMap (sentOf hash storeB)).map
        fun p => ((p.1.length : Int))).sum) =
      ((ds.map fun d => match d with
        | some c => ((c.length : Nat) : Int)
        | none => 0).sum) := by
  intro ds
  induction ds with
  | nil => simp
  | cons d ds' ih =>
    cases d with
    | none =>
      simp only [List.filterMap_cons, sentOf, List.map_cons, List.sum_cons]
      rw [ih]
      simp
    | some c =>
      simp only [List.filterMap_cons, sentOf, List.map_cons, List.sum_cons]
      rw [ih]

theorem dsOf_sizeSum (hash : Chunk → SKey) (storeB : SKey → Option Chunk)
    (file : List Chunk) (perm : Nat → Nat) (n : Nat)
    (hinj : ∀ a < file.length, ∀ b < file.length, perm a = perm b → a = b)
    (hlt : ∀ i < file.length, perm i < n) :
    (((dsOf file perm n).filterMap (sentOf hash storeB)).map
      fun p => ((p.1.length : Int))).sum = fileSize file := by
  rw [sum_filterMap_sent, dsOf, List.map_map, list_sum_range]
  have hstep : ∀ s, ((fun d => match d with
      | some c => ((c.length : Nat) : Int)
      | none => 0) ∘ fun s => (invPerm perm file.length s).bind file.get?) s =
      match invPerm perm file.length s with
      | some i => ((file.getD i []).length : Int)
      | none => 0 := by
    intro s
    simp only [Function.comp]
    cases hip : invPerm perm file.length s with
    | none => simp
    | some i =>
      have hik : i < file.length := invPerm_lt hip
      simp only [Option.some_bind]
      rw [List.get?_eq_getElem?, List.getElem?_eq_getElem hik]
      rw [List.getD_eq_getElem?_getD, List.getElem?_eq_getElem hik]
      rfl
  rw [Finset.sum_congr rfl (fun s _ => hstep s)]
  rw [← Finset.sum_filter_add_sum_filter_not (Finset.range n)
    (fun s => (invPerm perm file.length s).isSome)]
  have hzero : ∑ s ∈ (Finset.range n).filter
      (fun s => ¬ (invPerm perm file.length s).isSome),
      (match invPerm perm file.length s with
        | some i => ((file.getD i []).length : Int)
        | none => 0) = 0 := by
    apply Finset.sum_eq_zero
    intro s hs
    have := (Finset.mem_filter.mp hs).2
    cases hip : invPerm perm file.length s with
    | none => simp
    | some i => rw [hip] at this; simp at this
  rw [hzero, add_zero]
  have himg : (Finset.range n).filter
      (fun s => (invPerm perm file.length s).isSome) =
      (Finset.range file.length).image perm := by
    ext s
    simp only [Finset.mem_filter, Finset.mem_range, Finset.mem_image]
    constructor
    · rintro ⟨hsn, hsome⟩
      cases hip : invPerm perm file.length s with
      | none => rw [hip] at hsome; simp at hsome
      | some i =>
        have hik : i < file.length := invPerm_lt hip
        have h' : (List.range file.length).find? (fun j => perm j == s) =
            some i := hip
        have hpi := List.find?_some h'
        exact ⟨i, hik, by simpa using hpi⟩
    · rintro ⟨i, hik, hpi⟩
      constructor
      · exact hpi ▸ hlt i hik
      · rw [invPerm_eq_some hinj hik hpi]
        rfl
  rw [himg, Finset.sum_image (fun a ha b hb h =>
    hinj a (Finset.mem_range.mp ha) b (Finset.mem_range.mp hb) h)]
  have hterm : ∀ i ∈ Finset.range file.length,
      (match invPerm perm file.length (perm i) with
        | some j => ((file.getD j []).length : Int)
        | none => 0) = ((file.getD i []).length : Int) := by
    intro i hi
    rw [invPerm_eq_some hinj (Finset.mem_range.mp hi) rfl]
  rw [Finset.sum_congr rfl hterm]
  rw [fileSize]
  have hmapeq : file.map List.length =
      (List.range file.length).map fun i => (file.getD i []).length := by
    apply List.ext_getElem
    · simp
    · intro i h1 h2
      simp only [List.getElem_map, List.getElem_range]
      rw [List.getD_eq_getElem?_getD, List.getElem?_eq_getElem (by simpa using h1)]
      rfl
  rw [hmapeq, list_sum_range]
  push_cast
  rfl

/-! ## The complete synchronization session -/

theorem dsOf_length (file : List Chunk) (perm : Nat → Nat) (n : Nat) :
    (dsOf file perm n).length = n := by
  simp [dsOf]

theorem syncPipeline_eq (hash : Chunk → SKey) (storeA storeB : SKey → Option Chunk)
    (file : List Chunk) (perm : Nat → Nat) (n : Nat)
    (hinjN : ∀ a < n, ∀ b < n, perm a = perm b → a = b)
    (hltN : ∀ i < n, perm i < n)
    (hkn : file.length ≤ n)
    (hlen32 : ∀ c ∈ file, (hash c).length = keyLen)
    (hne : ∀ c ∈ file, hash c ≠ emptyKey)
    (hA : ∀ c ∈ file, storeA (hash c) = some c)
    (hB : ∀ c ∈ file, ∀ c', storeB (hash c) = some c' → c' = c) :
    syncPipeline hash storeA storeB file perm n = some file := by
  have hinj : ∀ a < file.length, ∀ b < file.length, perm a = perm b → a = b :=
    fun a ha b hb => hinjN a (lt_of_lt_of_le ha hkn) b (lt_of_lt_of_le hb hkn)
  have hlt : ∀ i < file.length, perm i < n :=
    fun i hi => hltN i (lt_of_lt_of_le hi hkn)
  have hmem : ∀ c, some c ∈ dsOf file perm n → c ∈ file := by
    intro c hm
    rcases mem_dsOf hm with h | ⟨c', hc', he⟩
    · exact absurd h (by simp)
    · rw [Option.some.inj he]
      exact hc'
  -- phase 1: the hash stream and its parse
  have h1 := WriteChunkHashes_eq hash file perm n hinj hlt hkn
  have hentlen : ((dsOf file perm n).map (entryOf hash)).length = n := by
    simp [dsOf_length]
  have hkeylens : ∀ e ∈ (dsOf file perm n).map (entryOf hash),
      e.1.length = keyLen := by
    intro e he
    obtain ⟨d, hd, hde⟩ := List.mem_map.mp he
    cases d with
    | none =>
      rw [← hde]
      simp [entryOf, emptyKey]
    | some c =>
      rw [← hde]
      exact hlen32 c (hmem c hd)
  have h2 : parseEntries n
      (((dsOf file perm n).map fun d =>
        (entryOf hash d).1 ++ writeVarint (entryOf hash d).2).flatten) =
      some ((dsOf file perm n).map (entryOf hash), []) := by
    have hmm : ((dsOf file perm n).map fun d =>
        (entryOf hash d).1 ++ writeVarint (entryOf hash d).2) =
        ((dsOf file perm n).map (entryOf hash)).map fun e =>
          e.1 ++ writeVarint e.2 := by
      rw [List.map_map]
      rfl
    have hp := parseEntries_flatten ((dsOf file perm n).map (entryOf hash)) []
      hkeylens
    rw [hentlen] at hp
    rw [hmm]
    simpa using hp
  -- phase 2: the wishlist
  have h3 : wishBits storeB ((dsOf file perm n).map (entryOf hash)) =
      (dsOf file perm n).map (bitOf hash storeB) :=
    wishBits_eq_ds hash storeB file perm n
  -- phase 3, sender side
  have hwl : ((dsOf file perm n).map (bitOf hash storeB)).length = n := by
    simp [dsOf_length]
  have hzipmem : ∀ k b, (k, b) ∈ (slotSeq perm emptyKey (file.map hash) n).zip
      ((dsOf file perm n).map (bitOf hash storeB)) →
      ∃ d ∈ dsOf file perm n, k = keyOf hash d ∧ b = bitOf hash storeB d := by
    intro k b hm
    rw [slotSeq_keys_eq_ds, List.zip_map' (keyOf hash) (bitOf hash storeB)] at hm
    obtain ⟨d, hd, hde⟩ := List.mem_map.mp hm
    exact ⟨d, hd, congrArg Prod.fst hde.symm, congrArg Prod.snd hde.symm⟩
  have hph : ∀ k b, (k, b) ∈ (slotSeq perm emptyKey (file.map hash) n).zip
      ((dsOf file perm n).map (bitOf hash storeB)) → k = emptyKey → b = false := by
    intro k b hm hk
    obtain ⟨d, hd, hkd, hbd⟩ := hzipmem k b hm
    cases d with
    | none => rw [hbd]; rfl
    | some c =>
      exact absurd (hk ▸ hkd.symm : hash c = emptyKey) (hne c (hmem c hd))
  have hst : ∀ k b, (k, b) ∈ (slotSeq perm emptyKey (file.map hash) n).zip
      ((dsOf file perm n).map (bitOf hash storeB)) → k ≠ emptyKey →
      (storeA k).isSome := by
    intro k b hm hk
    obtain ⟨d, hd, hkd, hbd⟩ := hzipmem k b hm
    cases d with
    | none => exact absurd hkd (by simpa [keyOf] using hk)
    | some c =>
      rw [hkd]
      simp [keyOf, hA c (hmem c hd)]
  have h4 := WriteChunkData_run hash storeA file
    ((dsOf file perm n).map (bitOf hash storeB)) perm n false hinj hlt hkn hwl
    hph hst
  -- the sender's data stream
  have hsent : realPairs storeA ((slotSeq perm emptyKey (file.map hash) n).zip
      ((dsOf file perm n).map (bitOf hash storeB))) =
      (dsOf file perm n).filterMap (sentOf hash storeB) := by
    rw [slotSeq_keys_eq_ds]
    exact realPairs_ds hash storeA storeB (dsOf file perm n)
      (fun c hm => ⟨hne c (hmem c hm), hA c (hmem c hm)⟩)
  have hout : wcdOut (realPairs storeA
      ((slotSeq perm emptyKey (file.map hash) n).zip
        ((dsOf file perm n).map (bitOf hash storeB)))) =
      ((dsOf file perm n).map (dataOf hash storeB)).flatten := by
    rw [hsent, wcdOut_ds]
  -- phase 3, receiver side
  have h5 : recoverSlots storeB
      (((dsOf file perm n).map (entryOf hash)).zip
        ((dsOf file perm n).map (bitOf hash storeB)))
      (((dsOf file perm n).map (dataOf hash storeB)).flatten) =
      some (dsOf file perm n, []) := by
    have := recoverSlots_ds hash storeB (dsOf file perm n) []
      (fun c hm => ⟨hne c (hmem c hm), hB c (hmem c hm)⟩)
    simpa using this
  have h6 : reassemble perm n (dsOf file perm n) = file :=
    reassemble_ds file perm n hinjN hltN hkn
  -- assemble
  rw [syncPipeline, h1]
  simp only [h2, h3, h4, List.isEmpty_nil, if_true, hout, h5, h6]

/-! ## Support lemmas for the claim statements -/

/-- A shuffler session whose consumer simply collects the emitted items. -/
def runShufflerPure {α : Type} (perm : Nat → Nat) (n : Nat) (ph : α)
    (items : List α) : Except Empty (List α) :=
  runShuffler perm n ph (fun a l => .ok (l ++ [a])) items []

theorem foldl_concat {α : Type} :
    ∀ (l : List α) (init : List α),
      l.foldl (fun acc a => acc ++ [a]) init = init ++ l := by
  intro l
  induction l with
  | nil => intro init; simp
  | cons a l ih =>
    intro init
    simp only [List.foldl_cons, ih]
    simp

theorem slotSeq_get?_of_lt {α : Type} (perm : Nat → Nat) (ph : α)
    (items : List α) (n s : Nat) (h : s < n) :
    (slotSeq perm ph items n).get? s = some (slotItem perm ph items s) := by
  rw [slotSeq, List.get?_eq_getElem?, List.getElem?_map, List.getElem?_range h]
  rfl

theorem slotItem_of_idx {α : Type} {perm : Nat → Nat} {ph : α}
    {items : List α} {i : Nat}
    (hinj : ∀ a < items.length, ∀ b < items.length, perm a = perm b → a = b)
    (h : i < items.length) :
    slotItem perm ph items (perm i) = items.get ⟨i, h⟩ := by
  rw [slotItem, invPerm_eq_some hinj h rfl]
  simp [List.getD_eq_getElem?_getD, List.getElem?_eq_getElem h]

theorem wcdOut_length :
    ∀ (pairs : List (Chunk × Bool)),
      (wcdOut pairs).length =
        (pairs.map fun p =>
          if p.2 then (writeVarint p.1.length).length + p.1.length else 0).sum := by
  intro pairs
  induction pairs with
  | nil => simp [wcdOut]
  | cons p rest ih =>
    obtain ⟨c, b⟩ := p
    simp only [wcdOut, List.map_cons, List.flatten_cons, List.length_append,
      List.sum_cons] at ih ⊢
    rw [ih]
    cases b <;> simp

theorem hst_of_hA (hash : Chunk → SKey) (storage : SKey → Option Chunk)
    (file : List Chunk) (perm : Nat → Nat) (n : Nat) (wl : List Bool)
    (hA : ∀ c ∈ file, storage (hash c) = some c) :
    ∀ k b, (k, b) ∈ (slotSeq perm emptyKey (file.map hash) n).zip wl →
      k ≠ emptyKey → (storage k).isSome := by
  intro k b hm hk
  have hkmem : k ∈ slotSeq perm emptyKey (file.map hash) n :=
    (List.of_mem_zip hm).1
  rw [slotSeq_keys_eq_ds] at hkmem
  obtain ⟨d, hd, hde⟩ := List.mem_map.mp hkmem
  cases d with
  | none => exact absurd hde.symm hk
  | some c =>
    have hcf : c ∈ file := by
      rcases mem_dsOf hd with h | ⟨c', hc', he⟩
      · exact absurd h (by simp)
      · rw [Option.some.inj he]; exact hc'
    rw [← hde]
    simp [keyOf, hA c hcf]

theorem realPairs_length_ds (hash : Chunk → SKey) (storage : SKey → Option Chunk) :
    ∀ (ds : List (Option Chunk)) (ws : List Bool),
      ds.length = ws.length →
      (∀ c, some c ∈ ds → hash c ≠ emptyKey ∧ (storage (hash c)).isSome) →
      (realPairs storage ((ds.map (keyOf hash)).zip ws)).length =
        (ds.filterMap id).length := by
  intro ds
  induction ds with
  | nil => intro ws _ _; simp [realPairs]
  | cons d ds' ih =>
    intro ws hlen hcond
    cases ws with
    | nil => simp at hlen
    | cons w ws' =>
      have hcond' : ∀ c, some c ∈ ds' → hash c ≠ emptyKey ∧
          (storage (hash c)).isSome :=
        fun c hm => hcond c (List.mem_cons_of_mem _ hm)
      cases d with
      | none =>
        simp only [List.map_cons, List.zip_cons_cons, realPairs,
          List.filterMap_cons, keyOf, if_pos rfl, List.filterMap_cons]
        exact ih ws' (by simpa using hlen) hcond'
      | some c =>
        obtain ⟨hne, hsome⟩ := hcond c (List.mem_cons_self _ _)
        obtain ⟨c₀, hc₀⟩ := Option.isSome_iff_exists.mp hsome
        simp only [List.map_cons, List.zip_cons_cons, realPairs,
          List.filterMap_cons, keyOf, if_neg hne, hc₀, Option.map_some',
          List.length_cons, id]
        have := ih ws' (by simpa using hlen) hcond'
        rw [realPairs] at this
        rw [this]

theorem countP_eq_sum_ind {β : Type} (q : β → Bool) :
    ∀ (l : List β), l.countP q = (l.map fun a => if q a then 1 else 0).sum := by
  intro l
  induction l with
  | nil => simp
  | cons a l ih =>
    rw [List.countP_cons, List.map_cons, List.sum_cons, ih]
    cases hq : q a <;> simp [hq] <;> omega

theorem length_filterMap_id_opt :
    ∀ (l : List (Option Chunk)),
      (l.filterMap id).length = l.countP (fun o => o.isSome) := by
  intro l
  induction l with
  | nil => simp
  | cons d l ih =>
    cases d with
    | none => simpa [List.countP_cons] using ih
    | some c => simp [List.countP_cons, ih]

theorem dsOf_count (file : List Chunk) (perm : Nat → Nat) (n : Nat)
    (hinj : ∀ a < file.length, ∀ b < file.length, perm a = perm b → a = b)
    (hlt : ∀ i < file.length, perm i < n) :
    ((dsOf file perm n).filterMap id).length = file.length := by
  rw [length_filterMap_id_opt, dsOf, List.countP_map,
    countP_eq_sum_ind, list_sum_range]
  have hbind : ∀ (o : Option Nat), (∀ i, o = some i → i < file.length) →
      (o.bind file.get?).isSome = o.isSome := by
    intro o ho
    cases o with
    | none => rfl
    | some i =>
      simp [List.get?_eq_getElem?, List.getElem?_eq_getElem (ho i rfl)]
  have hcong : ∀ s ∈ Finset.range n,
      (if ((fun o : Option Chunk => o.isSome) ∘
        fun s => (invPerm perm file.length s).bind file.get?) s then 1 else 0) =
      (if (invPerm perm file.length s).isSome then (1 : Nat) else 0) := by
    intro s _
    simp only [Function.comp]
    simp only [hbind (invPerm perm file.length s) (fun i hi => invPerm_lt hi)]
  rw [Finset.sum_congr rfl hcong, Finset.sum_boole]
  have himg : (Finset.range n).filter
      (fun s => (invPerm perm file.length s).isSome) =
      (Finset.range file.length).image perm := by
    ext s
    simp only [Finset.mem_filter, Finset.mem_range, Finset.mem_image]
    constructor
    · rintro ⟨hsn, hsome⟩
      cases hip : invPerm perm file.length s with
      | none => rw [hip] at hsome; simp at hsome
      | some i =>
        have hik : i < file.length := invPerm_lt hip
        have h' : (List.range file.length).find? (fun j => perm j == s) =
            some i := hip
        have hpi := List.find?_some h'
        exact ⟨i, hik, by simpa using hpi⟩
    · rintro ⟨i, hik, hpi⟩
      constructor
      · exact hpi ▸ hlt i hik
      · rw [invPerm_eq_some hinj hik hpi]
        rfl
  rw [himg, Finset.card_image_of_injOn
    (fun a ha b hb h => hinj a (by simpa using ha) b (by simpa using hb) h),
    Finset.card_range]
  simp

theorem realPairs_cons (storage : SKey → Option Chunk) (p : SKey × Bool)
    (rest : List (SKey × Bool)) :
    realPairs storage (p :: rest) =
      (if p.1 = emptyKey then realPairs storage rest
       else
        match storage p.1 with
        | none => realPairs storage rest
        | some c => (c, p.2) :: realPairs storage rest) := by
  rw [realPairs, List.filterMap_cons]
  by_cases hk : p.1 = emptyKey
  · simp [hk, realPairs]
  · simp only [if_neg hk]
    cases hs : storage p.1 <;> simp [realPairs]

theorem sum_realPairs_ds (hash : Chunk → SKey) (storage : SKey → Option Chunk) :
    ∀ (ds : List (Option Chunk)) (ws : List Bool),
      ds.length = ws.length →
      (∀ c, some c ∈ ds → hash c ≠ emptyKey ∧ storage (hash c) = some c) →
      ((realPairs storage ((ds.map (keyOf hash)).zip ws)).map
        fun p => ((p.1.length : Int))).sum =
      ((ds.map fun d => match d with
        | some c => ((c.length : Nat) : Int)
        | none => 0).sum) := by
  intro ds
  induction ds with
  | nil => intro ws _ _; simp [realPairs]
  | cons d ds' ih =>
    intro ws hlen hcond
    cases ws with
    | nil => simp at hlen
    | cons w ws' =>
      have hcond' : ∀ c, some c ∈ ds' → hash c ≠ emptyKey ∧
          storage (hash c) = some c :=
        fun c hm => hcond c (List.mem_cons_of_mem _ hm)
      cases d with
      | none =>
        simp only [List.map_cons, List.zip_cons_cons, realPairs_cons, keyOf,
          if_pos rfl, if_true, eq_self_iff_true, List.sum_cons]
        rw [ih ws' (by simpa using hlen) hcond']
        simp
      | some c =>
        obtain ⟨hne, hsome⟩ := hcond c (List.mem_cons_self _ _)
        simp only [List.map_cons, List.zip_cons_cons, realPairs_cons, keyOf,
          if_neg hne, hsome, List.map_cons, List.sum_cons]
        rw [ih ws' (by simpa using hlen) hcond']

theorem dsOf_weightSum (file : List Chunk) (perm : Nat → Nat) (n : Nat)
    (hinj : ∀ a < file.length, ∀ b < file.length, perm a = perm b → a = b)
    (hlt : ∀ i < file.length, perm i < n) :
    ((dsOf file perm n).map fun d => match d with
      | some c => ((c.length : Nat) : Int)
      | none => 0).sum = fileSize file := by
  have h := dsOf_sizeSum (fun _ => emptyKey) (fun _ => none) file perm n hinj hlt
  rw [sum_filterMap_sent] at h
  exact h

theorem realPairs_sizeSum (hash : Chunk → SKey) (storage : SKey → Option Chunk)
    (file : List Chunk) (perm : Nat → Nat) (n : Nat) (wl : List Bool)
    (hinj : ∀ a < file.length, ∀ b < file.length, perm a = perm b → a = b)
    (hlt : ∀ i < file.length, perm i < n) (hwl : wl.length = n)
    (hA : ∀ c ∈ file, storage (hash c) = some c)
    (hne : ∀ c ∈ file, hash c ≠ emptyKey) :
    ((realPairs storage ((slotSeq perm emptyKey (file.map hash) n).zip wl)).map
      fun p => ((p.1.length : Int))).sum = fileSize file := by
  rw [slotSeq_keys_eq_ds]
  have hmem : ∀ c, some c ∈ dsOf file perm n → c ∈ file := by
    intro c hm
    rcases mem_dsOf hm with h | ⟨c', hc', he⟩
    · exact absurd h (by simp)
    · rw [Option.some.inj he]; exact hc'
  rw [sum_realPairs_ds hash storage (dsOf file perm n) wl
    (by rw [dsOf_length, hwl])
    (fun c hm => ⟨hne c (hmem c hm), hA c (hmem c hm)⟩)]
  exact dsOf_weightSum file perm n hinj hlt

/-! ## Claim theorems -/

/-- **C1**: For every source file and every permutation whose domain size is
at least the file's chunk count, running the three phases (chunk-hash
advertisement, wishlist generation, chunk-data delivery, reconstruction)
between a sender store and a receiver store — whether they share none, some
or all content — produces a reconstructed file in the receiver's storage
that is byte-identical in content and size to the sender's source file. -/
theorem claim_C1 (hash : Chunk → SKey) (storeA storeB : SKey → Option Chunk)
    (file : List Chunk) (perm : Nat → Nat) (n : Nat)
    (hinjN : ∀ a < n, ∀ b < n, perm a = perm b → a = b)
    (hltN : ∀ i < n, perm i < n)
    (hkn : file.length ≤ n)
    (hlen32 : ∀ c ∈ file, (hash c).length = keyLen)
    (hne : ∀ c ∈ file, hash c ≠ emptyKey)
    (hA : ∀ c ∈ file, storeA (hash c) = some c)
    (hB : ∀ c ∈ file, ∀ c', storeB (hash c) = some c' → c' = c) :
    syncPipeline hash storeA storeB file perm n = some file ∧
    ∀ result, syncPipeline hash storeA storeB file perm n = some result →
      result.flatten = file.flatten ∧
      result.flatten.length = file.flatten.length := by
  have h := syncPipeline_eq hash storeA storeB file perm n hinjN hltN hkn
    hlen32 hne hA hB
  refine ⟨h, ?_⟩
  intro r hr
  rw [h] at hr
  rw [← Option.some.inj hr]
  exact ⟨rfl, rfl⟩

/-- Content hash used by the concrete test instances: width-`keyLen`,
nonzero, and separating the chunks of the test file. -/
def hashW : Chunk → SKey :=
  fun c => c.length % 256 :: (c.headD 0 % 256) :: List.replicate 30 0

/-- Test file: two chunks. -/
def fileW : List Chunk := [[7], [8, 9]]

/-- Test permutation on domain `[0, 3)`. -/
def permW : Nat → Nat := fun i => (i + 1) % 3

/-- Sender store holding exactly the test file's chunks. -/
def storeAW : SKey → Option Chunk := fun k =>
  if k = hashW [7] then some [7]
  else if k = hashW [8, 9] then some [8, 9] else none

/-- Receiver store sharing nothing. -/
def storeBW : SKey → Option Chunk := fun _ => none

theorem claim_C1_witness :
    syncPipeline hashW storeAW storeBW fileW permW 3 = some fileW :=
  (claim_C1 hashW storeAW storeBW fileW permW 3
    (by decide) (by decide) (by decide) (by decide) (by decide) (by decide)
    (by intro c hc c' h; exact Option.noConfusion h)).1

/-- **C2**: For every permutation domain size `N` and every sequence of
`k ≤ N` `Put` calls followed by `End` on a stream shuffler, the emit
callback is invoked exactly `N` times, once per destination slot
`0..N-1` in ascending slot order, with the real item for each slot that has
a corresponding `Put` and the placeholder value for every remaining slot. -/
theorem claim_C2 {α : Type} (perm : Nat → Nat) (n : Nat) (ph : α)
    (items : List α)
    (hinj : ∀ a < items.length, ∀ b < items.length, perm a = perm b → a = b)
    (hlt : ∀ i < items.length, perm i < n)
    (hkn : items.length ≤ n) :
    runShufflerPure perm n ph items = .ok (slotSeq perm ph items n) ∧
    (slotSeq perm ph items n).length = n ∧
    (∀ i (h : i < items.length),
      (slotSeq perm ph items n).get? (perm i) = some (items.get ⟨i, h⟩)) ∧
    (∀ s < n, ¬ covered perm items.length s →
      (slotSeq perm ph items n).get? s = some ph) := by
  refine ⟨?_, by simp [slotSeq], ?_, ?_⟩
  · rw [runShufflerPure, runShuffler_eq_foldES perm items _ ph n hinj hlt hkn,
      foldES_pure_append (fun (l : List α) a => l ++ [a]), foldl_concat]
    simp
  · intro i h
    rw [slotSeq_get?_of_lt perm ph items n (perm i) (hlt i h),
      slotItem_of_idx hinj h]
  · intro s hs hnc
    rw [slotSeq_get?_of_lt perm ph items n s hs, not_covered_slotItem ph hnc]

theorem claim_C2_witness :
    runShufflerPure permW 3 99 [10, 20] =
      .ok (slotSeq permW 99 [10, 20] 3) :=
  (claim_C2 permW 3 99 [10, 20] (by decide) (by decide) (by decide)).1

/-- **C3**: For every file and permutation, `WriteChunkHashes` writes to the
output exactly `N_slots` entries in shuffled slot order, each entry being
the slot's fixed-width key bytes followed by the varint encoding of its
size, where slots not backed by a real chunk carry the all-zero placeholder
key and size 0. -/
theorem claim_C3 (hash : Chunk → SKey) (file : List Chunk) (perm : Nat → Nat)
    (n : Nat)
    (hinj : ∀ a < file.length, ∀ b < file.length, perm a = perm b → a = b)
    (hlt : ∀ i < file.length, perm i < n)
    (hkn : file.length ≤ n)
    (hlen32 : ∀ c ∈ file, (hash c).length = keyLen) :
    WriteChunkHashes hash file perm n =
      .ok (((dsOf file perm n).map fun d =>
        (entryOf hash d).1 ++ writeVarint (entryOf hash d).2).flatten) ∧
    (dsOf file perm n).length = n ∧
    (∀ i (h : i < file.length),
      (dsOf file perm n).get? (perm i) = some (some (file.get ⟨i, h⟩))) ∧
    (∀ s < n, ¬ covered perm file.length s →
      (dsOf file perm n).get? s = some none) ∧
    (∀ d ∈ dsOf file perm n, (entryOf hash d).1.length = keyLen) ∧
    entryOf hash none = (List.replicate keyLen 0, 0) := by
  refine ⟨WriteChunkHashes_eq hash file perm n hinj hlt hkn,
    dsOf_length file perm n, ?_, ?_, ?_, rfl⟩
  · intro i h
    rw [dsOf, List.get?_eq_getElem?, List.getElem?_map,
      List.getElem?_range (hlt i h)]
    simp only [Option.map_some', Option.some.injEq]
    rw [invPerm_eq_some hinj h rfl]
    simp [List.get?_eq_getElem?, List.getElem?_eq_getElem h]
  · intro s hs hnc
    rw [dsOf, List.get?_eq_getElem?, List.getElem?_map, List.getElem?_range hs]
    simp only [Option.map_some', Option.some.injEq]
    rw [invPerm_eq_none.mpr hnc]
    rfl
  · intro d hd
    rcases mem_dsOf hd with h | ⟨c, hc, he⟩
    · subst h
      simp [entryOf, emptyKey]
    · subst he
      exact hlen32 c hc

theorem claim_C3_witness :
    WriteChunkHashes hashW fileW permW 3 =
      .ok (((dsOf fileW permW 3).map fun d =>
        (entryOf hashW d).1 ++ writeVarint (entryOf hashW d).2).flatten) :=
  (claim_C3 hashW fileW permW 3 (by decide) (by decide) (by decide)
    (by decide)).1

/-- **C4**: During wishlist processing, a placeholder slot whose wishlist
bit is set aborts the iteration with the `SpuriousRequest` error
("Receiver requested the empty chunk"), and a placeholder slot whose bit is
clear is skipped without consulting chunk storage and without invoking the
per-chunk function (witnessed by `fecStep` returning the state unchanged,
uniformly in the storage and the per-chunk function). -/
theorem claim_C4 {σ ε : Type} (storage : SKey → Option Chunk)
    (fileKeys : List SKey) (wl : List Bool) (perm : Nat → Nat) (n : Nat)
    (f : Chunk → Bool → σ → Except ε σ) (u0 : σ) (m : Nat)
    (hinj : ∀ a < fileKeys.length, ∀ b < fileKeys.length, perm a = perm b → a = b)
    (hlt : ∀ i < fileKeys.length, perm i < n)
    (hkn : fileKeys.length ≤ n) (hwl : wl.length = n)
    (hbad : ((slotSeq perm emptyKey fileKeys n).zip wl).get? m =
      some (emptyKey, true))
    (hpre : ∀ k b, (k, b) ∈ ((slotSeq perm emptyKey fileKeys n).zip wl).take m →
      (k = emptyKey → b = false) ∧ (k ≠ emptyKey → (storage k).isSome))
    (hf : ∀ c b u, ∃ u', f c b u = .ok u') :
    forEachChunk storage fileKeys ⟨bitsToBytes wl, false⟩ perm n f u0 =
      .error .spuriousRequest ∧
    ∀ (storage' : SKey → Option Chunk) (f' : Chunk → Bool → σ → Except ε σ)
      (u : σ), fecStep storage' f' emptyKey false u = .ok u ∧
        fecStep storage' f' emptyKey true u = .error .spuriousRequest := by
  constructor
  · obtain ⟨hm, hget⟩ := List.get?_eq_some.mp hbad
    have hsplit : (slotSeq perm emptyKey fileKeys n).zip wl =
        ((slotSeq perm emptyKey fileKeys n).zip wl).take m ++
        ((emptyKey, true) ::
          ((slotSeq perm emptyKey fileKeys n).zip wl).drop (m + 1)) := by
      conv_lhs =>
        rw [← List.take_append_drop m ((slotSeq perm emptyKey fileKeys n).zip wl)]
      have hge : ((slotSeq perm emptyKey fileKeys n).zip wl)[m] =
          (emptyKey, true) := by
        simpa [List.get_eq_getElem] using hget
      rw [List.drop_eq_getElem_cons hm, hge]
    have hsrc : (⟨bitsToBytes wl, false⟩ : ByteSrc) =
        ⟨bitsToBytes wl ++ [], false⟩ := by simp
    rw [hsrc, forEachChunk_run storage fileKeys wl [] false perm n f u0
      hinj hlt hkn hwl]
    rw [hsplit, foldES2_append]
    rw [foldES2_fecStep_eq storage f _ u0
      (fun k b hmem => (hpre k b hmem).1) (fun k b hmem => (hpre k b hmem).2)]
    obtain ⟨u₁, hu₁⟩ := foldES2_liftF_ok f hf
      (realPairs storage (((slotSeq perm emptyKey fileKeys n).zip wl).take m)) u0
    rw [hu₁]
    have hstep : fecStep storage f emptyKey true u₁ =
        .error .spuriousRequest := by
      simp [fecStep]
    simp only [foldES2, hstep]
  · intro storage' f' u
    constructor
    · simp [fecStep]
    · simp [fecStep]

theorem claim_C4_witness :
    forEachChunk storeAW [hashW [7]] ⟨bitsToBytes [false, true], false⟩
      (fun i => i) 2 (fun (_ : Chunk) (_ : Bool) (u : Unit) => .ok u) () =
      .error (FErr.spuriousRequest (ε := Unit)) :=
  (claim_C4 storeAW [hashW [7]] [false, true] (fun i => i) 2
    (fun _ _ u => .ok u) () 1
    (by decide) (by decide) (by decide) (by decide) (by decide)
    (by
      intro k b hm
      have ht : (((slotSeq (fun i => i) emptyKey [hashW [7]] 2).zip
          [false, true]).take 1) = [(hashW [7], false)] := by decide
      rw [ht, List.mem_singleton] at hm
      rw [Prod.ext_iff] at hm
      obtain ⟨hk, hb⟩ := hm
      subst hk; subst hb
      exact ⟨fun h => by revert h; decide, fun _ => by decide⟩)
    (fun c b u => ⟨u, rfl⟩)).1

/-- **C5**: Wishlist framing: exactly one bit is consumed per slot; if the
bit supply is exhausted before all `n` slots are processed the iteration
fails with the wishlist-too-short error, and if any full byte remains in
the stream after all slots are processed it fails with the
wishlist-too-long error. -/
theorem claim_C5 {σ ε : Type} (storage : SKey → Option Chunk)
    (fileKeys : List SKey) (wlShort wlFull : List Bool) (b0 : Nat)
    (perm : Nat → Nat) (n : Nat) (f : Chunk → Bool → σ → Except ε σ) (u0 : σ)
    (hinj : ∀ a < fileKeys.length, ∀ b < fileKeys.length, perm a = perm b → a = b)
    (hlt : ∀ i < fileKeys.length, perm i < n)
    (hkn : fileKeys.length ≤ n)
    (hs8 : wlShort.length % 8 = 0) (hslt : wlShort.length < n)
    (hpreS : ∀ k b, (k, b) ∈
        ((slotSeq perm emptyKey fileKeys n).take wlShort.length).zip wlShort →
      (k = emptyKey → b = false) ∧ (k ≠ emptyKey → (storage k).isSome))
    (hwlF : wlFull.length = n)
    (hpreF : ∀ k b, (k, b) ∈ (slotSeq perm emptyKey fileKeys n).zip wlFull →
      (k = emptyKey → b = false) ∧ (k ≠ emptyKey → (storage k).isSome))
    (hf : ∀ c b u, ∃ u', f c b u = .ok u') :
    forEachChunk storage fileKeys ⟨bitsToBytes wlShort, false⟩ perm n f u0 =
      .error .wishlistTooShort ∧
    forEachChunk storage fileKeys ⟨bitsToBytes wlFull ++ [b0], false⟩ perm n
      f u0 = .error .wishlistTooLong := by
  constructor
  · have hslots : (slotSeq perm emptyKey fileKeys n).length = n := by
      simp [slotSeq]
    simp only [forEachChunk, fecEmit]
    rw [runShuffler_eq_foldES perm fileKeys _ emptyKey n hinj hlt hkn]
    have hsrceq : (⟨bitsToBytes wlShort, false⟩ : ByteSrc) =
        ⟨bitsToBytes wlShort ++ [], false⟩ := by simp
    rw [hsrceq]
    have htsplit : slotSeq perm emptyKey fileKeys n =
        (slotSeq perm emptyKey fileKeys n).take wlShort.length ++
        (slotSeq perm emptyKey fileKeys n).drop wlShort.length :=
      (List.take_append_drop _ _).symm
    rw [htsplit, foldES_append]
    have htake_len :
        ((slotSeq perm emptyKey fileKeys n).take wlShort.length).length =
          wlShort.length := by
      rw [List.length_take, hslots]
      omega
    have htrans := foldES_bitEmit_bytes
      (fun _ => (FErr.wishlistTooShort : FErr ε)) (fecStep storage f) false
      wlShort.length wlShort
      ((slotSeq perm emptyKey fileKeys n).take wlShort.length) [] u0
      le_rfl htake_len
    rw [htrans]
    rw [foldES2_fecStep_eq storage f _ u0
      (fun k b hm => (hpreS k b hm).1) (fun k b hm => (hpreS k b hm).2)]
    obtain ⟨u₁, hu₁⟩ := foldES2_liftF_ok f hf
      (realPairs storage
        (((slotSeq perm emptyKey fileKeys n).take wlShort.length).zip wlShort))
      u0
    rw [hu₁]
    have hpad : padBits wlShort = [] := by
      simp [padBits, hs8]
    rw [hpad]
    have hmlt : wlShort.length < (slotSeq perm emptyKey fileKeys n).length := by
      rw [hslots]
      exact hslt
    rw [List.drop_eq_getElem_cons hmlt]
    have hemit : bitEmit (fun _ => (FErr.wishlistTooShort : FErr ε))
        (fecStep storage f)
        ((slotSeq perm emptyKey fileKeys n)[wlShort.length])
        ((⟨⟨[], false⟩, []⟩ : BitReader), u₁) = .error .wishlistTooShort := rfl
    simp only [foldES, hemit]
  · rw [forEachChunk_run storage fileKeys wlFull [b0] false perm n f u0
      hinj hlt hkn hwlF]
    rw [foldES2_fecStep_eq storage f _ u0
      (fun k b hm => (hpreF k b hm).1) (fun k b hm => (hpreF k b hm).2)]
    obtain ⟨u₂, hu₂⟩ := foldES2_liftF_ok f hf
      (realPairs storage ((slotSeq perm emptyKey fileKeys n).zip wlFull)) u0
    rw [hu₂]
    rfl

theorem claim_C5_witness :
    forEachChunk storeAW [hashW [7]] ⟨bitsToBytes [], false⟩ (fun i => i) 2
      (fun (_ : Chunk) (_ : Bool) (u : Unit) => .ok u) () =
      .error (FErr.wishlistTooShort (ε := Unit)) :=
  (claim_C5 storeAW [hashW [7]] [] [false, false] 0 (fun i => i) 2
    (fun _ _ u => .ok u) ()
    (by decide) (by decide) (by decide) (by decide) (by decide)
    (by
      intro k b hm
      simp at hm)
    (by decide)
    (by
      intro k b hm
      have ht : (slotSeq (fun i => i) emptyKey [hashW [7]] 2).zip
          [false, false] = [(hashW [7], false), (emptyKey, false)] := by decide
      rw [ht, List.mem_cons] at hm
      rcases hm with hm | hm
      · rw [Prod.ext_iff] at hm
        obtain ⟨hk, hb⟩ := hm
        subst hk; subst hb
        exact ⟨fun h => by revert h; decide, fun _ => by decide⟩
      · rw [List.mem_singleton, Prod.ext_iff] at hm
        obtain ⟨hk, hb⟩ := hm
        subst hk; subst hb
        exact ⟨fun _ => rfl, fun h => absurd rfl h⟩)
    (fun c b u => ⟨u, rfl⟩)).1

/-- **C10**: After all slots are processed, any outcome of the final
one-byte read other than a clean end-of-stream — a remaining byte or a
genuine I/O error — is reported as the wishlist-too-long error; a read
error at that point is not distinguished from trailing data. -/
theorem claim_C10 {σ ε : Type} (storage : SKey → Option Chunk)
    (fileKeys : List SKey) (wl : List Bool) (b0 : Nat)
    (perm : Nat → Nat) (n : Nat) (f : Chunk → Bool → σ → Except ε σ) (u0 : σ)
    (hinj : ∀ a < fileKeys.length, ∀ b < fileKeys.length, perm a = perm b → a = b)
    (hlt : ∀ i < fileKeys.length, perm i < n)
    (hkn : fileKeys.length ≤ n)
    (hwl : wl.length = n)
    (hpre : ∀ k b, (k, b) ∈ (slotSeq perm emptyKey fileKeys n).zip wl →
      (k = emptyKey → b = false) ∧ (k ≠ emptyKey → (storage k).isSome))
    (hf : ∀ c b u, ∃ u', f c b u = .ok u') :
    forEachChunk storage fileKeys ⟨bitsToBytes wl, true⟩ perm n f u0 =
      .error .wishlistTooLong ∧
    forEachChunk storage fileKeys ⟨bitsToBytes wl ++ [b0], false⟩ perm n
      f u0 = .error .wishlistTooLong := by
  constructor
  · have hsrceq : (⟨bitsToBytes wl, true⟩ : ByteSrc) =
        ⟨bitsToBytes wl ++ [], true⟩ := by simp
    rw [hsrceq, forEachChunk_run storage fileKeys wl [] true perm n f u0
      hinj hlt hkn hwl]
    rw [foldES2_fecStep_eq storage f _ u0
      (fun k b hm => (hpre k b hm).1) (fun k b hm => (hpre k b hm).2)]
    obtain ⟨u₁, hu₁⟩ := foldES2_liftF_ok f hf
      (realPairs storage ((slotSeq perm emptyKey fileKeys n).zip wl)) u0
    rw [hu₁]
    rfl
  · rw [forEachChunk_run storage fileKeys wl [b0] false perm n f u0
      hinj hlt hkn hwl]
    rw [foldES2_fecStep_eq storage f _ u0
      (fun k b hm => (hpre k b hm).1) (fun k b hm => (hpre k b hm).2)]
    obtain ⟨u₂, hu₂⟩ := foldES2_liftF_ok f hf
      (realPairs storage ((slotSeq perm emptyKey fileKeys n).zip wl)) u0
    rw [hu₂]
    rfl

theorem claim_C10_witness :
    forEachChunk storeAW [hashW [7]] ⟨bitsToBytes [false, false], true⟩
      (fun i => i) 2 (fun (_ : Chunk) (_ : Bool) (u : Unit) => .ok u) () =
      .error (FErr.wishlistTooLong (ε := Unit)) :=
  (claim_C10 storeAW [hashW [7]] [false, false] 0 (fun i => i) 2
    (fun _ _ u => .ok u) ()
    (by decide) (by decide) (by decide) (by decide)
    (by
      intro k b hm
      have ht : (slotSeq (fun i => i) emptyKey [hashW [7]] 2).zip
          [false, false] = [(hashW [7], false), (emptyKey, false)] := by decide
      rw [ht, List.mem_cons] at hm
      rcases hm with hm | hm
      · rw [Prod.ext_iff] at hm
        obtain ⟨hk, hb⟩ := hm
        subst hk; subst hb
        exact ⟨fun h => by revert h; decide, fun _ => by decide⟩
      · rw [List.mem_singleton, Prod.ext_iff] at hm
        obtain ⟨hk, hb⟩ := hm
        subst hk; subst hb
        exact ⟨fun _ => rfl, fun h => absurd rfl h⟩)
    (fun c b u => ⟨u, rfl⟩)).1

/-- One status snapshot is reported per processed chunk. -/
theorem wcdSnaps_length :
    ∀ (pairs : List (Chunk × Bool)) (toT trf : Int),
      (wcdSnaps pairs toT trf).length = pairs.length := by
  intro pairs
  induction pairs with
  | nil => intro toT trf; rfl
  | cons q rest ih =>
    intro toT trf
    obtain ⟨c, b⟩ := q
    rw [wcdSnaps, List.length_cons, List.length_cons, ih]

theorem reqSum_nonneg : ∀ (pairs : List (Chunk × Bool)), 0 ≤ reqSum pairs := by
  intro pairs
  induction pairs with
  | nil => simp [reqSum]
  | cons p rest ih =>
    obtain ⟨c, b⟩ := p
    simp only [reqSum, List.map_cons, List.sum_cons] at ih ⊢
    cases b <;> simp <;> omega

theorem wcdSnaps_trf_le :
    ∀ (pairs : List (Chunk × Bool)) (toT trf : Int),
      ∀ p ∈ wcdSnaps pairs toT trf, p.2 ≤ trf + reqSum pairs := by
  intro pairs
  induction pairs with
  | nil =>
    intro toT trf p hp
    simp [wcdSnaps] at hp
  | cons q rest ih =>
    intro toT trf p hp
    obtain ⟨c, b⟩ := q
    rw [wcdSnaps] at hp
    have h0 := reqSum_nonneg rest
    have hreq : reqSum ((c, b) :: rest) =
        (if b then (c.length : Int) else 0) + reqSum rest := by
      simp [reqSum]
    rcases List.mem_cons.mp hp with hp | hp
    · rw [hp, hreq]
      cases b <;> simp <;> omega
    · have hih := ih _ _ p hp
      rw [hreq]
      cases b <;> simp at hih ⊢ <;> omega

/-- The number of real chunk/bit pairs dispatched to `f` equals the number
of chunks of the file, when the file's chunks are all held by storage under
nonzero keys. -/
theorem realPairs_length_file (hash : Chunk → SKey)
    (storage : SKey → Option Chunk) (file : List Chunk) (perm : Nat → Nat)
    (n : Nat) (wl : List Bool)
    (hinj : ∀ a < file.length, ∀ b < file.length, perm a = perm b → a = b)
    (hlt : ∀ i < file.length, perm i < n) (hwl : wl.length = n)
    (hA : ∀ c ∈ file, storage (hash c) = some c)
    (hne : ∀ c ∈ file, hash c ≠ emptyKey) :
    (realPairs storage
      ((slotSeq perm emptyKey (file.map hash) n).zip wl)).length =
      file.length := by
  rw [slotSeq_keys_eq_ds]
  have hmem : ∀ c, some c ∈ dsOf file perm n → c ∈ file := by
    intro c hm
    rcases mem_dsOf hm with h | ⟨c', hc', he⟩
    · exact absurd h (by simp)
    · rw [Option.some.inj he]
      exact hc'
  rw [realPairs_length_ds hash storage (dsOf file perm n) wl
    (by rw [dsOf_length, hwl])
    (fun c hm => ⟨hne c (hmem c hm), by rw [hA c (hmem c hm)]; rfl⟩)]
  exact dsOf_count file perm n hinj hlt

/-- **C6**: `WriteChunkData` drives the wishlist iteration with a per-chunk
closure that, for a requested chunk, writes the varint-encoded chunk size
followed by the chunk bytes and adds the chunk size to `bytesTransferred`,
and for a non-requested chunk writes nothing and subtracts the chunk size
from `bytesToTransfer`; consequently the output stream is exactly the
concatenation over requested chunks of the varint size prefix and the chunk
data, and its length is the sum of requested chunk sizes plus their varint
prefixes. -/
theorem claim_C6 (hash : Chunk → SKey) (storage : SKey → Option Chunk)
    (file : List Chunk) (wl : List Bool) (perm : Nat → Nat) (n : Nat)
    (hasCb : Bool)
    (hinj : ∀ a < file.length, ∀ b < file.length, perm a = perm b → a = b)
    (hlt : ∀ i < file.length, perm i < n) (hkn : file.length ≤ n)
    (hwl : wl.length = n)
    (hph : ∀ k b, (k, b) ∈ (slotSeq perm emptyKey (file.map hash) n).zip wl →
      k = emptyKey → b = false)
    (hst : ∀ k b, (k, b) ∈ (slotSeq perm emptyKey (file.map hash) n).zip wl →
      k ≠ emptyKey → (storage k).isSome) :
    WriteChunkData hash storage file ⟨bitsToBytes wl, false⟩ perm n hasCb =
      .ok { out := wcdOut (realPairs storage
              ((slotSeq perm emptyKey (file.map hash) n).zip wl)),
            toTransfer := fileSize file - unreqSum (realPairs storage
              ((slotSeq perm emptyKey (file.map hash) n).zip wl)),
            transferred := reqSum (realPairs storage
              ((slotSeq perm emptyKey (file.map hash) n).zip wl)),
            cbLog := if hasCb then
                (fileSize file, 0) :: wcdSnaps (realPairs storage
                  ((slotSeq perm emptyKey (file.map hash) n).zip wl))
                  (fileSize file) 0
              else [] } ∧
    (wcdOut (realPairs storage
        ((slotSeq perm emptyKey (file.map hash) n).zip wl))).length =
      ((realPairs storage ((slotSeq perm emptyKey (file.map hash) n).zip wl)).map
        fun p =>
          if p.2 then (writeVarint p.1.length).length + p.1.length else 0).sum :=
  ⟨WriteChunkData_run hash storage file wl perm n hasCb hinj hlt hkn hwl
    hph hst, wcdOut_length _⟩

/-- Wishlist used by the concrete `WriteChunkData` instances: slot 0 is the
placeholder (not requested), slot 1 is requested, slot 2 is not. -/
def wlW : List Bool := [false, true, false]

/-- The placeholder slots of the concrete instance carry clear bits. -/
theorem hphW : ∀ (k : SKey) (b : Bool),
    (k, b) ∈ (slotSeq permW emptyKey (fileW.map hashW) 3).zip wlW →
    k = emptyKey → b = false := by
  intro k b hm
  have ht : (slotSeq permW emptyKey (fileW.map hashW) 3).zip wlW =
      [(emptyKey, false), (hashW [7], true), (hashW [8, 9], false)] := by
    decide
  rw [ht, List.mem_cons] at hm
  rcases hm with hm | hm
  · rw [Prod.ext_iff] at hm
    obtain ⟨hk, hb⟩ := hm
    subst hb
    exact fun _ => rfl
  · rw [List.mem_cons] at hm
    rcases hm with hm | hm
    · rw [Prod.ext_iff] at hm
      obtain ⟨hk, hb⟩ := hm
      subst hk
      intro h
      exact absurd h (by decide)
    · rw [List.mem_singleton, Prod.ext_iff] at hm
      obtain ⟨hk, hb⟩ := hm
      subst hb
      exact fun _ => rfl

theorem claim_C6_witness :
    WriteChunkData hashW storeAW fileW ⟨bitsToBytes wlW, false⟩ permW 3 true =
      .ok { out := wcdOut (realPairs storeAW
              ((slotSeq permW emptyKey (fileW.map hashW) 3).zip wlW)),
            toTransfer := fileSize fileW - unreqSum (realPairs storeAW
              ((slotSeq permW emptyKey (fileW.map hashW) 3).zip wlW)),
            transferred := reqSum (realPairs storeAW
              ((slotSeq permW emptyKey (fileW.map hashW) 3).zip wlW)),
            cbLog := if true then
                (fileSize fileW, 0) :: wcdSnaps (realPairs storeAW
                  ((slotSeq permW emptyKey (fileW.map hashW) 3).zip wlW))
                  (fileSize fileW) 0
              else [] } :=
  (claim_C6 hashW storeAW fileW wlW permW 3 true
    (by decide) (by decide) (by decide) (by decide) hphW
    (hst_of_hA hashW storeAW fileW permW 3 wlW (by decide))).1

/-- **C7**: When a status callback is supplied, `WriteChunkData` invokes it
exactly once before iteration with the initial values
`(file.Size(), 0)` and then once after every processed chunk, for a total
of one invocation per chunk plus one; when no callback is supplied it is
never invoked. -/
theorem claim_C7 (hash : Chunk → SKey) (storage : SKey → Option Chunk)
    (file : List Chunk) (wl : List Bool) (perm : Nat → Nat) (n : Nat)
    (hinj : ∀ a < file.length, ∀ b < file.length, perm a = perm b → a = b)
    (hlt : ∀ i < file.length, perm i < n) (hkn : file.length ≤ n)
    (hwl : wl.length = n)
    (hph : ∀ k b, (k, b) ∈ (slotSeq perm emptyKey (file.map hash) n).zip wl →
      k = emptyKey → b = false)
    (hA : ∀ c ∈ file, storage (hash c) = some c)
    (hne : ∀ c ∈ file, hash c ≠ emptyKey) :
    (∃ st, WriteChunkData hash storage file ⟨bitsToBytes wl, false⟩ perm n
        true = .ok st ∧
      st.cbLog = (fileSize file, 0) :: wcdSnaps (realPairs storage
        ((slotSeq perm emptyKey (file.map hash) n).zip wl)) (fileSize file) 0 ∧
      st.cbLog.length = file.length + 1 ∧
      st.cbLog.get? 0 = some (fileSize file, 0)) ∧
    (∃ st, WriteChunkData hash storage file ⟨bitsToBytes wl, false⟩ perm n
        false = .ok st ∧ st.cbLog = []) := by
  have hst := hst_of_hA hash storage file perm n wl hA
  constructor
  · refine ⟨_, WriteChunkData_run hash storage file wl perm n true hinj hlt
      hkn hwl hph hst, ?_, ?_, ?_⟩
    · simp
    · simp only [if_true, List.length_cons, wcdSnaps_length,
        realPairs_length_file hash storage file perm n wl hinj hlt hwl hA hne]
    · simp
  · exact ⟨_, WriteChunkData_run hash storage file wl perm n false hinj hlt
      hkn hwl hph hst, by simp⟩

theorem claim_C7_witness :
    (∃ st, WriteChunkData hashW storeAW fileW ⟨bitsToBytes wlW, false⟩ permW 3
        true = .ok st ∧
      st.cbLog = (fileSize fileW, 0) :: wcdSnaps (realPairs storeAW
        ((slotSeq permW emptyKey (fileW.map hashW) 3).zip wlW))
        (fileSize fileW) 0 ∧
      st.cbLog.length = fileW.length + 1 ∧
      st.cbLog.get? 0 = some (fileSize fileW, 0)) ∧
    (∃ st, WriteChunkData hashW storeAW fileW ⟨bitsToBytes wlW, false⟩ permW 3
        false = .ok st ∧ st.cbLog = []) :=
  claim_C7 hashW storeAW fileW wlW permW 3
    (by decide) (by decide) (by decide) (by decide) hphW (by decide) (by decide)

/-- **C8**: With a callback present, successive status snapshots are
monotone — `bytesToTransfer` never increases and `bytesTransferred` never
decreases across the run, starting from `(file.Size(), 0)` — and
`bytesTransferred` never exceeds the final value of `bytesToTransfer`. -/
theorem claim_C8 (hash : Chunk → SKey) (storage : SKey → Option Chunk)
    (file : List Chunk) (wl : List Bool) (perm : Nat → Nat) (n : Nat)
    (hinj : ∀ a < file.length, ∀ b < file.length, perm a = perm b → a = b)
    (hlt : ∀ i < file.length, perm i < n) (hkn : file.length ≤ n)
    (hwl : wl.length = n)
    (hph : ∀ k b, (k, b) ∈ (slotSeq perm emptyKey (file.map hash) n).zip wl →
      k = emptyKey → b = false)
    (hA : ∀ c ∈ file, storage (hash c) = some c)
    (hne : ∀ c ∈ file, hash c ≠ emptyKey) :
    ∃ st, WriteChunkData hash storage file ⟨bitsToBytes wl, false⟩ perm n
        true = .ok st ∧
      List.Chain' (fun p q : Int × Int => q.1 ≤ p.1 ∧ p.2 ≤ q.2) st.cbLog ∧
      st.cbLog.get? 0 = some (fileSize file, 0) ∧
      st.transferred ≤ st.toTransfer ∧
      (∀ p ∈ st.cbLog, p.2 ≤ st.toTransfer) := by
  have hst := hst_of_hA hash storage file perm n wl hA
  have hrun := WriteChunkData_run hash storage file wl perm n true hinj hlt
    hkn hwl hph hst
  have hsum : reqSum (realPairs storage
        ((slotSeq perm emptyKey (file.map hash) n).zip wl)) +
      unreqSum (realPairs storage
        ((slotSeq perm emptyKey (file.map hash) n).zip wl)) =
      fileSize file := by
    rw [reqSum_add_unreqSum]
    exact realPairs_sizeSum hash storage file perm n wl hinj hlt hwl hA hne
  have h0 := reqSum_nonneg (realPairs storage
    ((slotSeq perm emptyKey (file.map hash) n).zip wl))
  refine ⟨_, hrun, ?_, ?_, ?_, ?_⟩
  · simpa using wcdSnaps_chain (realPairs storage
      ((slotSeq perm emptyKey (file.map hash) n).zip wl)) (fileSize file) 0
  · simp
  · show reqSum (realPairs storage
        ((slotSeq perm emptyKey (file.map hash) n).zip wl)) ≤
      fileSize file - unreqSum (realPairs storage
        ((slotSeq perm emptyKey (file.map hash) n).zip wl))
    omega
  · intro p hp
    have hp' : p ∈ (fileSize file, 0) :: wcdSnaps (realPairs storage
        ((slotSeq perm emptyKey (file.map hash) n).zip wl))
        (fileSize file) 0 := hp
    show p.2 ≤ fileSize file - unreqSum (realPairs storage
      ((slotSeq perm emptyKey (file.map hash) n).zip wl))
    rcases List.mem_cons.mp hp' with h | h
    · rw [h]
      show (0 : Int) ≤ fileSize file - unreqSum (realPairs storage
        ((slotSeq perm emptyKey (file.map hash) n).zip wl))
      omega
    · have hle := wcdSnaps_trf_le (realPairs storage
        ((slotSeq perm emptyKey (file.map hash) n).zip wl))
        (fileSize file) 0 p h
      omega

theorem claim_C8_witness :
    ∃ st, WriteChunkData hashW storeAW fileW ⟨bitsToBytes wlW, false⟩ permW 3
        true = .ok st ∧
      List.Chain' (fun p q : Int × Int => q.1 ≤ p.1 ∧ p.2 ≤ q.2) st.cbLog ∧
      st.cbLog.get? 0 = some (fileSize fileW, 0) ∧
      st.transferred ≤ st.toTransfer ∧
      (∀ p ∈ st.cbLog, p.2 ≤ st.toTransfer) :=
  claim_C8 hashW storeAW fileW wlW permW 3
    (by decide) (by decide) (by decide) (by decide) hphW (by decide) (by decide)

/-- Counting events satisfying a predicate that implies `isGD` is
unaffected by restricting the trace to get/dispose events. -/
theorem countP_filter_GD (p : Ev → Bool) (hp : ∀ e, p e = true → isGD e = true) :
    ∀ l : List Ev, (l.filter isGD).countP p = l.countP p := by
  intro l
  induction l with
  | nil => rfl
  | cons e l ih =>
    cases hgd : isGD e with
    | true =>
      rw [List.filter_cons_of_pos hgd, List.countP_cons, List.countP_cons, ih]
    | false =>
      rw [List.filter_cons_of_neg (by simp [hgd]), List.countP_cons, ih]
      have hpe : p e = false := by
        cases hpe : p e with
        | false => rfl
        | true =>
          rw [hp e hpe] at hgd
          exact Bool.noConfusion hgd
      simp [hpe]

/-- **C9**: In every run of the wishlist iteration — whatever the storage,
file keys, byte source, permutation, per-chunk function and its outcomes —
the chunk handles obtained from storage are each disposed exactly once
before the iteration returns, also when the per-chunk function fails: the
get/dispose events of the trace form adjacent same-key acquire/release
pairs, and acquisitions and disposals are equinumerous. -/
theorem claim_C9 {σ ε : Type} (storage : SKey → Option Chunk)
    (fileKeys : List SKey) (src : ByteSrc) (perm : Nat → Nat) (n : Nat)
    (f : Chunk → Bool → σ → Except ε σ) (u0 : σ) :
    wellScoped
      (((forEachChunkTr storage fileKeys src perm n f u0).1).filter isGD) =
      true ∧
    ((forEachChunkTr storage fileKeys src perm n f u0).1).countP isGet =
      ((forEachChunkTr storage fileKeys src perm n f u0).1).countP isDispose := by
  have h1 := forEachChunkTr_preserve storage fileKeys src perm n f u0
  refine ⟨h1, ?_⟩
  have h2 := wellScoped_counts _ h1
  rw [← countP_filter_GD isGet
      (fun e he => by cases e <;> simp [isGet, isGD] at he ⊢) _,
    ← countP_filter_GD isDispose
      (fun e he => by cases e <;> simp [isDispose, isGD] at he ⊢) _]
  exact h2
